import Mathlib

/-!
Verification of the crawl-docs script (`scripts/run_crawl_docs.py`).

The script is embedded shallowly: Python strings are Lean `String`s
(operated on through their `List Char` data where convenient), the
`urllib.parse` helpers used by the script are modelled as executable
functions on strings, the external crawl4ai fetch primitive is an
abstract function supplied by an environment record, and the crawl
loop is a fuel-indexed interpreter over an explicit state record.
-/

namespace CrawlDocs

/-! ### Python string primitives

ASCII whitespace, as stripped by Python `str.strip()` and matched by
the regex class `\s` (the model restricts itself to the ASCII range;
no claim depends on non-ASCII whitespace). -/

def isPySpace (c : Char) : Bool :=
  c = ' ' || c = '\t' || c = '\n' || c = '\r' || c = '\x0b' || c = '\x0c'

/-- Python `str.lstrip()` on char lists. -/
def lstripL (l : List Char) : List Char :=
  l.dropWhile isPySpace

/-- Python `str.rstrip()` on char lists. -/
def rstripL (l : List Char) : List Char :=
  (l.reverse.dropWhile isPySpace).reverse

/-- Python `str.strip()` on char lists. -/
def stripL (l : List Char) : List Char :=
  rstripL (lstripL l)

/-- The characters replaced by `re.sub(r"[\\/:*?\"<>|]", "-", name)`. -/
def isBannedChar (c : Char) : Bool :=
  c = '\\' || c = '/' || c = ':' || c = '*' || c = '?' || c = '"' || c = '<' || c = '>' || c = '|'

/-- `re.sub(r"[\\/:*?\"<>|]", "-", name)`: replace each banned character by a dash. -/
def replaceBanned (l : List Char) : List Char :=
  l.map (fun c => if isBannedChar c then '-' else c)

/-- Worker for `re.sub(r"\s+", " ", name)`: the flag records whether the
previous character was whitespace (in which case further whitespace is
dropped rather than emitted). -/
def collapseGo : Bool → List Char → List Char
  | _, [] => []
  | prevWs, c :: rest =>
    if isPySpace c then
      if prevWs then collapseGo true rest
      else ' ' :: collapseGo true rest
    else c :: collapseGo false rest

/-- `re.sub(r"\s+", " ", name)`: each maximal whitespace run becomes one space. -/
def collapseWsL (l : List Char) : List Char :=
  collapseGo false l

/-- `_sanitize_filename` from the script, on char lists:
strip; empty becomes "untitled"; replace banned characters by `-`;
collapse whitespace runs and strip again; truncate to 120 characters. -/
def sanitizeL (l : List Char) : List Char :=
  let name := stripL l
  if name = [] then "untitled".data
  else (stripL (collapseWsL (replaceBanned name))).take 120

/-- `_sanitize_filename(name)` from the script. -/
def sanitize_filename (s : String) : String :=
  ⟨sanitizeL s.data⟩

/-! ### Model of the `urllib.parse` helpers used by the script

`urlparse`, `urldefrag` and `urljoin` come from the standard library,
not from this repository; they are modelled here after CPython's
`urllib/parse.py` restricted to the pieces the script reads (scheme,
netloc, path, fragment). -/

/-- Characters allowed in a URL scheme (CPython `scheme_chars`). -/
def isSchemeChar (c : Char) : Bool :=
  c.isAlpha || c.isDigit || c = '+' || c = '-' || c = '.'

/-- CPython `urlsplit` scheme detection: a leading `name:` where `name`
starts with an ASCII letter and consists of scheme characters; the
scheme is lowercased and removed.  Returns `(scheme, remainder)`, the
scheme being empty when absent. -/
def splitSchemeL (l : List Char) : List Char × List Char :=
  match l.findIdx? (fun c => c == ':') with
  | none => ([], l)
  | some i =>
    if (decide (0 < i)
        && (match l.head? with | some c => c.isAlpha | none => false)
        && (l.take i).all isSchemeChar) = true
    then ((l.take i).map Char.toLower, l.drop (i + 1))
    else ([], l)

def isNetlocEnd (c : Char) : Bool :=
  c == '/' || c == '?' || c == '#'

/-- CPython `_splitnetloc`: after a leading `//`, the netloc runs until
the first `/`, `?` or `#`.  Returns `(netloc, remainder)`; the
delimiter stays in the remainder. -/
def splitNetlocL (l : List Char) : List Char × List Char :=
  match l with
  | '/' :: '/' :: rest =>
    (rest.takeWhile (fun c => !isNetlocEnd c), rest.dropWhile (fun c => !isNetlocEnd c))
  | _ => ([], l)

/-- `url.split('#', 1)`: the part before the first `#` and the part after
(empty when there is no `#`). -/
def splitOnceL (sep : Char) (l : List Char) : List Char × List Char :=
  (l.takeWhile (fun c => !(c == sep)), (l.dropWhile (fun c => !(c == sep))).drop 1)

/-- CPython `_splitparams`, keeping only the path: parameters are the part
after a `;` occurring in the last path segment. -/
def stripParamsL (l : List Char) : List Char :=
  let after := (l.reverse.takeWhile (fun c => !(c == '/'))).reverse
  let preLen := l.length - after.length
  if after.contains ';' then
    l.take (preLen + (after.takeWhile (fun c => !(c == ';'))).length)
  else l

/-- The components of `urllib.parse.urlparse` that the script reads. -/
structure UrlParts where
  scheme : String
  netloc : String
  path : String
  query : String
  fragment : String
deriving DecidableEq, Repr

/-- Model of `urllib.parse.urlparse`: scheme, then `//netloc`, then the
fragment after the first `#`, the query after the first `?`, and the
path with parameters removed. -/
def urlparse (s : String) : UrlParts :=
  let (sch, rest1) := splitSchemeL s.data
  let (nl, rest2) := splitNetlocL rest1
  let (rest3, frag) := splitOnceL '#' rest2
  let (rest4, q) := splitOnceL '?' rest3
  ⟨⟨sch⟩, ⟨nl⟩, ⟨stripParamsL rest4⟩, ⟨q⟩, ⟨frag⟩⟩

/-- Modelled from the spec: `urllib.parse.urldefrag(u).url` — the spec
describes it as stripping the `#...` suffix, so the model keeps the
part of the string before the first `#`. -/
def urldefrag (s : String) : String :=
  ⟨s.data.takeWhile (fun c => !(c == '#'))⟩

/-! ### Title extraction (`_extract_title`)

The regex `<title[^>]*>(.*?)</title>` with `IGNORECASE | DOTALL` is
modelled by a scan over every start position: at the first position
where `<title` matches case-insensitively and a `>` follows the run of
non-`>` characters and a later `</title>` exists, the group is the text
between that `>` and the first subsequent `</title>`. -/

/-- Does `l` start with `pat` (pattern given in lowercase), comparing
case-insensitively? -/
def matchesCI (pat : List Char) : List Char → Bool
  | l =>
    match pat, l with
    | [], _ => true
    | _ :: _, [] => false
    | p :: ps, c :: cs => c.toLower == p && matchesCI ps cs

/-- The characters before the first case-insensitive occurrence of `pat`,
or `none` when `pat` never occurs. -/
def findBeforeCI (pat : List Char) : List Char → Option (List Char)
  | [] => if matchesCI pat [] then some [] else none
  | c :: rest =>
    if matchesCI pat (c :: rest) then some []
    else (findBeforeCI pat rest).map (fun g => c :: g)

/-- Complete a match that started at some `<title`: skip the `[^>]*>` part,
then capture up to the first `</title>`. -/
def titleComplete (l : List Char) : Option (List Char) :=
  match l.dropWhile (fun c => !(c == '>')) with
  | [] => none
  | _ :: afterGt => findBeforeCI "</title>".data afterGt

/-- `re.search(r"<title[^>]*>(.*?)</title>", html, re.IGNORECASE | re.DOTALL)`:
the captured group of the leftmost match, if any. -/
def titleGroup : List Char → Option (List Char)
  | [] => none
  | c :: rest =>
    match (if matchesCI "<title".data (c :: rest) then titleComplete ((c :: rest).drop 6) else none) with
    | some g => some g
    | none => titleGroup rest

/-- Python dict truthiness plus `get`: the value at `k` when the dict is
non-empty and the value is a non-empty string. -/
def truthyLookup (m : List (String × String)) (k : String) : Option String :=
  if m = [] then none
  else
    match m.lookup k with
    | some v => if v = "" then none else some v
    | none => none

/-- The message of the `AttributeError` raised by `_extract_title`: the
parameter `html` shadows the imported `html` module, so
`html.unescape(...)` is an attribute access on a `str`. -/
def attrErrorMsg : String :=
  "AttributeError: 'str' object has no attribute 'unescape'"

/-- `path.rstrip("/").split("/")[-1] or url` from `_extract_title`. -/
def urlLastSegment (url : String) : String :=
  let p := ((urlparse url).path.data.reverse.dropWhile (fun c => c == '/')).reverse
  let seg := (p.reverse.takeWhile (fun c => !(c == '/'))).reverse
  if seg = [] then url else ⟨seg⟩

/-- `_extract_title(metadata, html, url)` from the script.  The branch
that scans the raw HTML raises `AttributeError` whenever the `<title>`
regex matches, because the parameter `html` shadows the `html` module;
the exception is modelled as `Except.error`. -/
def extract_title (metadata : Option (List (String × String))) (htmlStr : String)
    (url : String) : Except String String :=
  match (match metadata with
         | none => none
         | some m => truthyLookup m "title") with
  | some t => .ok t
  | none =>
    if htmlStr ≠ "" then
      match titleGroup htmlStr.data with
      | some _ => .error attrErrorMsg
      | none => .ok (urlLastSegment url)
    else .ok (urlLastSegment url)

/-! ### Fetch results and the crawl environment -/

/-- `result.markdown`: either a plain string or an object exposing
`raw_markdown` (which may itself be missing). -/
inductive MarkdownVal where
  | plain (s : String)
  | obj (raw_markdown : Option String)

/-- A link record exposing an `href` field (`link.get("href")`). -/
structure LinkRec where
  href : Option String

/-- The crawl4ai result object, restricted to the fields the script reads. -/
structure FetchResult where
  success : Bool
  error_message : String
  url : String
  html : String
  metadata : Option (List (String × String))
  markdown : Option MarkdownVal
  links : Option (List (String × List LinkRec))

/-- `_get_markdown(result)` from the script. -/
def get_markdown (m : Option MarkdownVal) : String :=
  match m with
  | none => ""
  | some (.plain s) => s
  | some (.obj raw) => raw.getD ""

/-- Modelled from the spec: the external fetch primitive (crawl4ai's
`crawler.arun`) and `urllib.parse.urljoin` (resolution of an href
against the page's final URL) are collaborators supplied from outside. -/
structure CrawlEnv where
  fetch : String → FetchResult
  urljoin : String → String → String

/-! ### The name registry (lines 77–81 of the script) -/

/-- Python dict assignment `d[k] = v` on an association list. -/
def updateA (m : List (String × Nat)) (k : String) (v : Nat) : List (String × Nat) :=
  match m with
  | [] => [(k, v)]
  | (k2, v2) :: rest => if k2 = k then (k, v) :: rest else (k2, v2) :: updateA rest k v

/-- The filename chosen for the `count`-th (0-based) use of a base name:
`f"{base_name}.md"` on first use, else `f"{base_name}-{count + 1}.md"`. -/
def nameFor (base : String) (count : Nat) : String :=
  if count == 0 then base ++ ".md" else base ++ "-" ++ Nat.repr (count + 1) ++ ".md"

/-- The filenames generated for a sequence of page titles, threading the
`used_names` registry exactly as the script does. -/
def assignGo (reg : List (String × Nat)) : List String → List String
  | [] => []
  | title :: rest =>
    let base := sanitize_filename title
    let count := (reg.lookup base).getD 0
    nameFor base count :: assignGo (updateA reg base (count + 1)) rest

/-- The filenames a run persists for a given sequence of page titles. -/
def assignNames (titles : List String) : List String :=
  assignGo [] titles

/-! ### The crawl loop (`crawl_site`) -/

/-- The mutable state of one crawl invocation: the FIFO frontier, the
visited set (insertion-ordered), the name registry, plus the
observable effects (URLs fetched, files written, log lines). -/
structure LoopState where
  queue : List String
  seen : List String
  used_names : List (String × Nat)
  fetched : List String
  files : List (String × String)
  logs : List String

/-- The log line printed for a failed fetch. -/
def skipMsg (url err : String) : String :=
  "Skip (failed): " ++ url ++ " -> " ++ err

/-- `result.links.get("internal", []) if result.links else []`. -/
def internalLinksOf (r : FetchResult) : List LinkRec :=
  match r.links with
  | none => []
  | some m => (m.lookup "internal").getD []

/-- Processing of one discovered link (lines 86–99): skip an absent or
empty href; resolve against the final URL and strip the fragment;
keep the link only when the scheme is http or https, the netloc equals
the start URL's netloc, and the URL is not yet visited. -/
def processLink (env : CrawlEnv) (finalUrl base_netloc : String) (seen : List String)
    (link : LinkRec) : Option String :=
  match link.href with
  | none => none
  | some href =>
    if href = "" then none
    else
      let absUrl := urldefrag (env.urljoin finalUrl href)
      if ¬ ((urlparse absUrl).scheme = "http" ∨ (urlparse absUrl).scheme = "https") then none
      else if (urlparse absUrl).netloc ≠ base_netloc then none
      else if absUrl ∈ seen then none
      else some absUrl

/-- One iteration of the while body once a head `current` has been popped
(lines 63–99).  The first component is `some e` when the iteration
raises an uncaught exception `e` (from `_extract_title`); the second is
the state reached, including in the exceptional case. -/
def stepOnce (env : CrawlEnv) (base_netloc : String) (st : LoopState)
    (current : String) (rest : List String) : Option String × LoopState :=
  let cur := urldefrag current
  if cur ∈ st.seen then (none, { st with queue := rest })
  else
    let st1 : LoopState :=
      { st with queue := rest, seen := st.seen ++ [cur], fetched := st.fetched ++ [cur] }
    let r := env.fetch cur
    if r.success = false then
      (none, { st1 with logs := st1.logs ++ [skipMsg cur r.error_message] })
    else
      match extract_title r.metadata r.html r.url with
      | .error e => (some e, st1)
      | .ok title =>
        let md := get_markdown r.markdown
        let base := sanitize_filename title
        let count := (st1.used_names.lookup base).getD 0
        let newLinks := (internalLinksOf r).filterMap (processLink env r.url base_netloc st1.seen)
        (none, { st1 with
                 used_names := updateA st1.used_names base (count + 1),
                 files := st1.files ++ [(nameFor base count, md)],
                 queue := rest ++ newLinks })

/-- `max_pages is not None and len(seen) >= max_pages`. -/
def capReached (maxPages : Option Nat) (nSeen : Nat) : Bool :=
  match maxPages with
  | none => false
  | some n => decide (n ≤ nSeen)

/-- How a crawl loop ends: frontier exhausted or cap reached (`done`), an
uncaught exception (`exn`), or the interpreter ran out of fuel
(`fuelOut`, meaning the real loop would still be running). -/
inductive LoopOutcome where
  | done (st : LoopState)
  | exn (msg : String) (st : LoopState)
  | fuelOut (st : LoopState)

/-- The state carried by a loop outcome. -/
def LoopOutcome.state : LoopOutcome → LoopState
  | .done st => st
  | .exn _ st => st
  | .fuelOut st => st

/-- The while loop of `crawl_site` (lines 61–99), fuel-indexed: the loop
runs while the frontier is non-empty, breaking first when the page cap
has been reached; `fuelOut` stands for a loop that is still running. -/
def crawlLoop (env : CrawlEnv) (base_netloc : String) (maxPages : Option Nat) :
    Nat → LoopState → LoopOutcome
  | 0, st =>
    match st.queue with
    | [] => .done st
    | _ :: _ => if capReached maxPages st.seen.length then .done st else .fuelOut st
  | fuel + 1, st =>
    match st.queue with
    | [] => .done st
    | current :: rest =>
      if capReached maxPages st.seen.length then .done st
      else
        match stepOnce env base_netloc st current rest with
        | (some e, st1) => .exn e st1
        | (none, st1) => crawlLoop env base_netloc maxPages fuel st1

/-- The state in which `crawl_site` enters its loop: the frontier seeded
with the raw start URL (`deque([start_url])`), everything else empty. -/
def initState (start_url : String) : LoopState :=
  { queue := [start_url], seen := [], used_names := [], fetched := [], files := [], logs := [] }

/-- The message of the `ValueError` raised for a start URL with no netloc. -/
def invalidUrlMsg : String := "Invalid start URL."

/-- The observable outcome of one `crawl_site` invocation. -/
structure RunResult where
  error : Option String
  dirCreated : Bool
  finished : Bool
  fetched : List String
  seen : List String
  files : List (String × String)
  logs : List String

/-- `crawl_site(start_url, output_dir, max_pages)`.  The output directory
only prefixes file paths, so files are recorded as (filename, body)
pairs; `dirCreated` records whether `os.makedirs` ran.  The netloc
check happens before any I/O; an uncaught exception from the loop
surfaces in `error` with the effects performed so far. -/
def crawl_site (env : CrawlEnv) (start_url : String) (max_pages : Option Nat)
    (fuel : Nat) : RunResult :=
  let base_netloc := (urlparse start_url).netloc
  if base_netloc = "" then
    { error := some invalidUrlMsg, dirCreated := false, finished := false,
      fetched := [], seen := [], files := [], logs := [] }
  else
    match crawlLoop env base_netloc max_pages fuel (initState start_url) with
    | .done st =>
      { error := none, dirCreated := true, finished := true,
        fetched := st.fetched, seen := st.seen, files := st.files, logs := st.logs }
    | .exn e st =>
      { error := some e, dirCreated := true, finished := false,
        fetched := st.fetched, seen := st.seen, files := st.files, logs := st.logs }
    | .fuelOut st =>
      { error := none, dirCreated := true, finished := false,
        fetched := st.fetched, seen := st.seen, files := st.files, logs := st.logs }

/-- A string containing no `#`, i.e. invariant under fragment stripping. -/
def fragmentFree (s : String) : Bool :=
  !(s.data.contains '#')

/-! ### Vocabulary used by the statements and proofs -/

/-- The first character, if any, is not whitespace. -/
def noLeadWs (l : List Char) : Bool :=
  match l.head? with
  | some c => !isPySpace c
  | none => true

/-- Every whitespace character is a plain space. -/
def allWsSpace (l : List Char) : Bool :=
  l.all (fun c => !isPySpace c || c == ' ')

/-- No two adjacent whitespace characters. -/
def noWsRun : List Char → Bool
  | [] => true
  | [_] => true
  | a :: b :: rest => !(isPySpace a && isPySpace b) && noWsRun (b :: rest)

/-- No character from the sanitizer's banned class. -/
def noBanned (l : List Char) : Bool :=
  l.all (fun c => !isBannedChar c)

/-- The string ends with a space character. -/
def endsWithSpace (s : String) : Bool :=
  s.data.getLast? == some ' '

/-- Every fetch the environment can perform reports failure. -/
def envAllFail (env : CrawlEnv) : Prop :=
  ∀ u, (env.fetch u).success = false

/-- The loop invariant tying the observable effects together: fetches
happen exactly when a URL enters the visited set, visited URLs are
fragment-free and pairwise distinct, log lines correspond one-to-one
to the failed fetches, and an environment whose fetches all fail
never produces a file. -/
def LoopInv (env : CrawlEnv) (st : LoopState) : Prop :=
  st.fetched = st.seen ∧
  st.seen.Nodup ∧
  (∀ u ∈ st.seen, fragmentFree u = true) ∧
  st.logs = (st.fetched.filter (fun u => !(env.fetch u).success)).map
      (fun u => skipMsg u (env.fetch u).error_message) ∧
  (envAllFail env → st.files = [])

/-- The state reached by the failure branch of one iteration. -/
def failState (env : CrawlEnv) (st : LoopState) (cur : String) (rest : List String) :
    LoopState :=
  { st with
    queue := rest
    seen := st.seen ++ [cur]
    fetched := st.fetched ++ [cur]
    logs := st.logs ++ [skipMsg cur (env.fetch cur).error_message] }

/-- The state reached when the title extraction raises. -/
def exnState (st : LoopState) (cur : String) (rest : List String) : LoopState :=
  { st with
    queue := rest
    seen := st.seen ++ [cur]
    fetched := st.fetched ++ [cur] }

/-- The state reached by the successful branch of one iteration. -/
def okState (env : CrawlEnv) (bn : String) (st : LoopState) (cur : String)
    (rest : List String) (title : String) : LoopState :=
  { st with
    queue := rest ++ (internalLinksOf (env.fetch cur)).filterMap
      (processLink env (env.fetch cur).url bn (st.seen ++ [cur]))
    seen := st.seen ++ [cur]
    fetched := st.fetched ++ [cur]
    used_names := updateA st.used_names (sanitize_filename title)
      (((st.used_names.lookup (sanitize_filename title)).getD 0) + 1)
    files := st.files ++ [(nameFor (sanitize_filename title)
      ((st.used_names.lookup (sanitize_filename title)).getD 0),
      get_markdown (env.fetch cur).markdown)] }

/-- An environment whose every fetch fails. -/
def envFailAll : CrawlEnv where
  fetch := fun u =>
    { success := false, error_message := "connection refused", url := u, html := "",
      metadata := none, markdown := none, links := none }
  urljoin := fun _ href => href

/-- An environment whose pages fetch successfully with no metadata title
and an HTML `<title>` element, driving `_extract_title` into its
HTML-scanning branch. -/
def envTitleOnly : CrawlEnv where
  fetch := fun u =>
    { success := true, error_message := "", url := u, html := "<html><title>Docs</title></html>",
      metadata := none, markdown := some (.plain "body"), links := none }
  urljoin := fun _ href => href

end CrawlDocs

/-! ## Proofs -/

namespace CrawlDocs

/-! ### Whitespace and stripping lemmas -/

theorem dropWhile_head_false (p : Char → Bool) :
    ∀ (l : List Char) (c : Char), (l.dropWhile p).head? = some c → p c = false := by
  intro l
  induction l with
  | nil => intro c h; simp [List.dropWhile] at h
  | cons a rest ih =>
    intro c h
    by_cases hp : p a = true
    · rw [List.dropWhile_cons_of_pos hp] at h; exact ih c h
    · rw [List.dropWhile_cons_of_neg hp] at h
      simp at h
      rw [← h]
      simpa using hp

theorem rstripL_append (l : List Char) : ∃ u, l = rstripL l ++ u := by
  refine ⟨(l.reverse.takeWhile isPySpace).reverse, ?_⟩
  have h := List.takeWhile_append_dropWhile isPySpace l.reverse
  calc l = l.reverse.reverse := (List.reverse_reverse l).symm
    _ = (l.reverse.takeWhile isPySpace ++ l.reverse.dropWhile isPySpace).reverse := by rw [h]
    _ = rstripL l ++ (l.reverse.takeWhile isPySpace).reverse := by
          rw [List.reverse_append]; rfl

theorem lstripL_head (l : List Char) : noLeadWs (lstripL l) = true := by
  unfold noLeadWs
  cases h : (lstripL l).head? with
  | none => rfl
  | some c =>
    have := dropWhile_head_false isPySpace l c h
    simp [this]

theorem rstripL_getLast (l : List Char) :
    ∀ c, (rstripL l).getLast? = some c → isPySpace c = false := by
  intro c h
  rw [List.getLast?_eq_head?_reverse] at h
  unfold rstripL at h
  rw [List.reverse_reverse] at h
  exact dropWhile_head_false isPySpace l.reverse c h

theorem stripL_noLead (l : List Char) : noLeadWs (stripL l) = true := by
  unfold stripL
  obtain ⟨u, hu⟩ := rstripL_append (lstripL l)
  cases h : rstripL (lstripL l) with
  | nil => rfl
  | cons c cs =>
    have hl : noLeadWs (lstripL l) = true := lstripL_head l
    rw [h] at hu
    rw [hu] at hl
    unfold noLeadWs at hl ⊢
    simpa using hl

theorem stripL_getLast (l : List Char) :
    ∀ c, (stripL l).getLast? = some c → isPySpace c = false :=
  rstripL_getLast (lstripL l)

theorem lstripL_of_noLead (l : List Char) (h : noLeadWs l = true) : lstripL l = l := by
  cases l with
  | nil => rfl
  | cons c cs =>
    unfold noLeadWs at h
    simp at h
    unfold lstripL
    rw [List.dropWhile_cons_of_neg (by simp [h])]

theorem rstripL_of_getLast (l : List Char)
    (h : ∀ c, l.getLast? = some c → isPySpace c = false) : rstripL l = l := by
  unfold rstripL
  cases hr : l.reverse with
  | nil =>
    have : l = [] := by simpa using congrArg List.reverse hr
    simp [this]
  | cons c cs =>
    have hc : isPySpace c = false := by
      apply h
      rw [List.getLast?_eq_head?_reverse, hr]
      rfl
    rw [List.dropWhile_cons_of_neg (by simp [hc]), ← hr, List.reverse_reverse]

theorem mem_lstripL {c : Char} {l : List Char} (h : c ∈ lstripL l) : c ∈ l :=
  (List.dropWhile_sublist isPySpace).mem h

theorem mem_rstripL {c : Char} {l : List Char} (h : c ∈ rstripL l) : c ∈ l := by
  unfold rstripL at h
  rw [List.mem_reverse] at h
  exact List.mem_reverse.mp ((List.dropWhile_sublist isPySpace).mem h)

theorem mem_stripL {c : Char} {l : List Char} (h : c ∈ stripL l) : c ∈ l :=
  mem_lstripL (mem_rstripL h)

theorem rstripL_ne_nil {c : Char} {l : List Char} (hc : c ∈ l) (hw : isPySpace c = false) :
    rstripL l ≠ [] := by
  intro hnil
  unfold rstripL at hnil
  have hdrop : l.reverse.dropWhile isPySpace = [] := by
    simpa using congrArg List.reverse hnil
  have htake : l.reverse.takeWhile isPySpace = l.reverse := by
    have := List.takeWhile_append_dropWhile isPySpace l.reverse
    rw [hdrop, List.append_nil] at this
    exact this
  have hmemTake : c ∈ List.takeWhile isPySpace l.reverse := by
    rw [htake, List.mem_reverse]
    exact hc
  have : isPySpace c = true := List.mem_takeWhile_imp hmemTake
  rw [hw] at this
  exact Bool.false_ne_true this

/-! ### Whitespace-collapsing lemmas -/

theorem collapseGo_true_head :
    ∀ (l : List Char) (c : Char), (collapseGo true l).head? = some c → isPySpace c = false := by
  intro l
  induction l with
  | nil => intro c h; simp [collapseGo] at h
  | cons a rest ih =>
    intro c h
    by_cases ha : isPySpace a = true
    · rw [show collapseGo true (a :: rest) = collapseGo true rest by
        simp [collapseGo, ha]] at h
      exact ih c h
    · rw [show collapseGo true (a :: rest) = a :: collapseGo false rest by
        simp [collapseGo, ha]] at h
      simp at h
      rw [← h]
      simpa using ha

theorem collapseGo_allWsSpace :
    ∀ (l : List Char) (b : Bool), allWsSpace (collapseGo b l) = true := by
  intro l
  induction l with
  | nil => intro b; rfl
  | cons a rest ih =>
    intro b
    by_cases ha : isPySpace a = true
    · cases b with
      | true => simpa [collapseGo, ha] using ih true
      | false =>
        rw [show collapseGo false (a :: rest) = ' ' :: collapseGo true rest by
          simp [collapseGo, ha]]
        unfold allWsSpace at ih ⊢
        simp only [List.all_cons, Bool.and_eq_true]
        exact ⟨by decide, ih true⟩
    · rw [show collapseGo b (a :: rest) = a :: collapseGo false rest by
        simp [collapseGo, ha]]
      unfold allWsSpace at ih ⊢
      simp only [List.all_cons, Bool.and_eq_true]
      refine ⟨by simp [ha], ih false⟩

theorem noWsRun_cons (a : Char) (l : List Char)
    (h1 : ∀ d, l.head? = some d → (isPySpace a && isPySpace d) = false)
    (h2 : noWsRun l = true) : noWsRun (a :: l) = true := by
  cases l with
  | nil => rfl
  | cons d rest =>
    unfold noWsRun
    simp only [Bool.and_eq_true]
    exact ⟨by rw [h1 d rfl]; decide, h2⟩

theorem noWsRun_tail {a : Char} {l : List Char} (h : noWsRun (a :: l) = true) :
    noWsRun l = true := by
  cases l with
  | nil => rfl
  | cons d rest =>
    unfold noWsRun at h
    simp only [Bool.and_eq_true] at h
    exact h.2

theorem collapseGo_noWsRun :
    ∀ (l : List Char) (b : Bool), noWsRun (collapseGo b l) = true := by
  intro l
  induction l with
  | nil => intro b; rfl
  | cons a rest ih =>
    intro b
    by_cases ha : isPySpace a = true
    · cases b with
      | true => simpa [collapseGo, ha] using ih true
      | false =>
        rw [show collapseGo false (a :: rest) = ' ' :: collapseGo true rest by
          simp [collapseGo, ha]]
        apply noWsRun_cons
        · intro d hd
          have := collapseGo_true_head rest d hd
          simp [this]
        · exact ih true
    · rw [show collapseGo b (a :: rest) = a :: collapseGo false rest by
        simp [collapseGo, ha]]
      apply noWsRun_cons
      · intro d _
        simp [ha]
      · exact ih false

theorem collapseGo_mem :
    ∀ (l : List Char) (b : Bool) (c : Char), c ∈ collapseGo b l → c = ' ' ∨ c ∈ l := by
  intro l
  induction l with
  | nil => intro b c h; simp [collapseGo] at h
  | cons a rest ih =>
    intro b c h
    by_cases ha : isPySpace a = true
    · cases b with
      | true =>
        rw [show collapseGo true (a :: rest) = collapseGo true rest by
          simp [collapseGo, ha]] at h
        rcases ih true c h with h1 | h2
        · exact Or.inl h1
        · exact Or.inr (List.mem_cons_of_mem a h2)
      | false =>
        rw [show collapseGo false (a :: rest) = ' ' :: collapseGo true rest by
          simp [collapseGo, ha]] at h
        rcases List.mem_cons.mp h with h1 | h2
        · exact Or.inl h1
        · rcases ih true c h2 with h3 | h4
          · exact Or.inl h3
          · exact Or.inr (List.mem_cons_of_mem a h4)
    · rw [show collapseGo b (a :: rest) = a :: collapseGo false rest by
        simp [collapseGo, ha]] at h
      rcases List.mem_cons.mp h with h1 | h2
      · exact Or.inr (by rw [h1]; exact List.mem_cons_self a rest)
      · rcases ih false c h2 with h3 | h4
        · exact Or.inl h3
        · exact Or.inr (List.mem_cons_of_mem a h4)

theorem collapseGo_fix :
    ∀ l : List Char, allWsSpace l = true → noWsRun l = true →
      (collapseGo false l = l ∧ (noLeadWs l = true → collapseGo true l = l)) := by
  intro l
  induction l with
  | nil => intro _ _; exact ⟨rfl, fun _ => rfl⟩
  | cons a rest ih =>
    intro hws hrun
    have hwsRest : allWsSpace rest = true := by
      unfold allWsSpace at hws ⊢
      simp only [List.all_cons, Bool.and_eq_true] at hws
      exact hws.2
    have haSpace : isPySpace a = true → a = ' ' := by
      intro haw
      unfold allWsSpace at hws
      simp only [List.all_cons, Bool.and_eq_true] at hws
      have := hws.1
      rw [haw] at this
      simpa using this
    have hrunRest : noWsRun rest = true := noWsRun_tail hrun
    obtain ⟨ihFalse, ihTrue⟩ := ih hwsRest hrunRest
    by_cases ha : isPySpace a = true
    · have haSp := haSpace ha
      have hheadRest : noLeadWs rest = true := by
        cases rest with
        | nil => rfl
        | cons d rest2 =>
          unfold noWsRun at hrun
          simp only [Bool.and_eq_true] at hrun
          have := hrun.1
          rw [ha] at this
          unfold noLeadWs
          simp only [List.head?_cons]
          simpa using this
      constructor
      · rw [show collapseGo false (a :: rest) = ' ' :: collapseGo true rest by
          simp [collapseGo, ha]]
        rw [ihTrue hheadRest, haSp]
      · intro hlead
        unfold noLeadWs at hlead
        simp only [List.head?_cons] at hlead
        rw [ha] at hlead
        simp at hlead
    · constructor
      · rw [show collapseGo false (a :: rest) = a :: collapseGo false rest by
          simp [collapseGo, ha]]
        rw [ihFalse]
      · intro _
        rw [show collapseGo true (a :: rest) = a :: collapseGo false rest by
          simp [collapseGo, ha]]
        rw [ihFalse]

/-! ### Banned-character lemmas -/

theorem replaceBanned_noBanned (l : List Char) : noBanned (replaceBanned l) = true := by
  unfold noBanned replaceBanned
  rw [List.all_eq_true]
  intro x hx
  rw [List.mem_map] at hx
  obtain ⟨c, _, hc⟩ := hx
  by_cases hb : isBannedChar c = true
  · rw [← hc]; simp [hb]; decide
  · rw [← hc]; simp [hb]

theorem replaceBanned_of_noBanned {l : List Char} (h : noBanned l = true) :
    replaceBanned l = l := by
  unfold replaceBanned
  unfold noBanned at h
  rw [List.all_eq_true] at h
  calc l.map (fun c => if isBannedChar c then '-' else c) = l.map id := by
        apply List.map_congr_left
        intro c hc
        have := h c hc
        simp at this
        simp [this]
    _ = l := List.map_id l

/-! ### Take lemmas -/

theorem head?_take_succ (n : Nat) (l : List Char) : (l.take (n + 1)).head? = l.head? := by
  cases l <;> rfl

theorem noWsRun_take : ∀ (l : List Char) (n : Nat), noWsRun l = true → noWsRun (l.take n) = true := by
  intro l
  induction l with
  | nil => intro n _; simp [noWsRun]
  | cons a rest ih =>
    intro n h
    cases n with
    | zero => rfl
    | succ m =>
      rw [List.take_succ_cons]
      apply noWsRun_cons
      · intro d hd
        cases m with
        | zero => simp at hd
        | succ k =>
          rw [head?_take_succ] at hd
          cases rest with
          | nil => simp at hd
          | cons e rest2 =>
            simp at hd
            unfold noWsRun at h
            simp only [Bool.and_eq_true] at h
            rw [← hd]
            have h1 := h.1
            cases hb : (isPySpace a && isPySpace e) with
            | false => rfl
            | true => rw [hb] at h1; simp at h1
      · exact ih m (noWsRun_tail h)

theorem mem_of_getLast?Some {l : List Char} {c : Char} (h : l.getLast? = some c) : c ∈ l := by
  rw [List.getLast?_eq_head?_reverse] at h
  cases hr : l.reverse with
  | nil => rw [hr] at h; simp at h
  | cons d rest =>
    rw [hr] at h
    simp at h
    rw [← List.mem_reverse, hr, ← h]
    exact List.mem_cons_self d rest


theorem noWsRun_append_left : ∀ {l u : List Char}, noWsRun (l ++ u) = true → noWsRun l = true := by
  intro l
  induction l with
  | nil => intro u _; rfl
  | cons a rest ih =>
    intro u h
    cases rest with
    | nil => rfl
    | cons b rest2 =>
      rw [List.cons_append, List.cons_append] at h
      unfold noWsRun at h ⊢
      simp only [Bool.and_eq_true] at h ⊢
      refine ⟨h.1, ?_⟩
      exact ih (by rw [List.cons_append]; exact h.2)

/-! ### The shape of a sanitized name -/

theorem collapse_replace_head (l : List Char) (h0 : stripL l ≠ []) :
    ∃ c' xs, isPySpace c' = false ∧
      collapseWsL (replaceBanned (stripL l)) = c' :: xs := by
  obtain ⟨c, cs, hn⟩ : ∃ c cs, stripL l = c :: cs := by
    cases hsl : stripL l with
    | nil => exact absurd hsl h0
    | cons c cs => exact ⟨c, cs, rfl⟩
  have hcWs : isPySpace c = false := by
    have := stripL_noLead l
    rw [hn] at this
    unfold noLeadWs at this
    simpa using this
  have hc'Ws : isPySpace (if isBannedChar c then '-' else c) = false := by
    by_cases hb : isBannedChar c = true
    · simp [hb]; decide
    · simp [hb, hcWs]
  refine ⟨if isBannedChar c then '-' else c, collapseGo false (replaceBanned cs), hc'Ws, ?_⟩
  rw [hn]
  show collapseGo false ((if isBannedChar c then '-' else c) :: replaceBanned cs) = _
  simp [collapseGo, hc'Ws]

theorem sanitizeL_shape (l : List Char) :
    sanitizeL l = "untitled".data ∨
    ∃ t : List Char, sanitizeL l = t.take 120 ∧ allWsSpace t = true ∧ noWsRun t = true ∧
      noBanned t = true ∧ noLeadWs t = true ∧
      (∀ c, t.getLast? = some c → isPySpace c = false) ∧ t ≠ [] := by
  by_cases h0 : stripL l = []
  · left
    simp only [sanitizeL, h0, if_pos]
  · right
    obtain ⟨c', xs, hc'Ws, hX⟩ := collapse_replace_head l h0
    have hXlead : noLeadWs (collapseWsL (replaceBanned (stripL l))) = true := by
      rw [hX]
      unfold noLeadWs
      simp [hc'Ws]
    have hlstrip : lstripL (collapseWsL (replaceBanned (stripL l))) =
        collapseWsL (replaceBanned (stripL l)) := lstripL_of_noLead _ hXlead
    have hstripEq : stripL (collapseWsL (replaceBanned (stripL l))) =
        rstripL (collapseWsL (replaceBanned (stripL l))) := by
      show rstripL (lstripL (collapseWsL (replaceBanned (stripL l)))) = _
      rw [hlstrip]
    refine ⟨stripL (collapseWsL (replaceBanned (stripL l))), ?_, ?_, ?_, ?_, ?_, ?_, ?_⟩
    · simp only [sanitizeL, h0, if_neg, if_false]
    · unfold allWsSpace
      rw [List.all_eq_true]
      intro x hx
      have hxX := mem_stripL hx
      have hall := collapseGo_allWsSpace (replaceBanned (stripL l)) false
      unfold allWsSpace at hall
      rw [List.all_eq_true] at hall
      exact hall x hxX
    · rw [hstripEq]
      obtain ⟨u, hu⟩ := rstripL_append (collapseWsL (replaceBanned (stripL l)))
      apply noWsRun_append_left
      rw [← hu]
      exact collapseGo_noWsRun (replaceBanned (stripL l)) false
    · unfold noBanned
      rw [List.all_eq_true]
      intro x hx
      have hxX := mem_stripL hx
      rcases collapseGo_mem (replaceBanned (stripL l)) false x hxX with hsp | hmem
      · rw [hsp]; decide
      · have hnb := replaceBanned_noBanned (stripL l)
        unfold noBanned at hnb
        rw [List.all_eq_true] at hnb
        exact hnb x hmem
    · exact stripL_noLead _
    · exact stripL_getLast _
    · rw [hstripEq]
      exact rstripL_ne_nil (by rw [hX]; exact List.mem_cons_self c' xs) hc'Ws

theorem sanitizeL_fix (l : List Char) (h : (sanitizeL l).getLast? ≠ some ' ') :
    sanitizeL (sanitizeL l) = sanitizeL l := by
  rcases sanitizeL_shape l with hU | ⟨t, ht, hws, hrun, hban, hlead, _, hne⟩
  · rw [hU]; decide
  · rw [ht] at h ⊢
    obtain ⟨c, cs, hcons⟩ : ∃ c cs, t = c :: cs := by
      cases hsl : t with
      | nil => exact absurd hsl hne
      | cons c cs => exact ⟨c, cs, rfl⟩
    have hneR : t.take 120 ≠ [] := by
      rw [hcons]
      simp
    have hleadR : noLeadWs (t.take 120) = true := by
      unfold noLeadWs at hlead ⊢
      rw [show (120 : Nat) = 119 + 1 by rfl, head?_take_succ]
      exact hlead
    have hwsR : allWsSpace (t.take 120) = true := by
      unfold allWsSpace at hws ⊢
      rw [List.all_eq_true] at hws ⊢
      intro x hx
      exact hws x (List.mem_of_mem_take hx)
    have hrunR : noWsRun (t.take 120) = true := noWsRun_take t 120 hrun
    have hbanR : noBanned (t.take 120) = true := by
      unfold noBanned at hban ⊢
      rw [List.all_eq_true] at hban ⊢
      intro x hx
      exact hban x (List.mem_of_mem_take hx)
    have hlastR : ∀ x, (t.take 120).getLast? = some x → isPySpace x = false := by
      intro x hx
      by_cases hxs : isPySpace x = true
      · have hxmem := mem_of_getLast?Some hx
        unfold allWsSpace at hwsR
        rw [List.all_eq_true] at hwsR
        have := hwsR x hxmem
        rw [hxs] at this
        simp at this
        rw [this] at hx
        exact absurd hx h
      · simpa using hxs
    have hstripR : stripL (t.take 120) = t.take 120 := by
      show rstripL (lstripL (t.take 120)) = _
      rw [lstripL_of_noLead _ hleadR, rstripL_of_getLast _ hlastR]
    have hlen : (t.take 120).length ≤ 120 := by
      rw [List.length_take]
      exact min_le_left _ _
    show sanitizeL (t.take 120) = t.take 120
    unfold sanitizeL
    simp only [hstripR, if_neg hneR]
    rw [replaceBanned_of_noBanned hbanR]
    rw [show collapseWsL (t.take 120) = t.take 120 from (collapseGo_fix _ hwsR hrunR).1]
    rw [hstripR]
    exact List.take_of_length_le hlen

theorem sanitizeL_length (l : List Char) : (sanitizeL l).length ≤ 120 := by
  rcases sanitizeL_shape l with hU | ⟨t, ht, _⟩
  · rw [hU]; decide
  · rw [ht, List.length_take]
    exact min_le_left _ _

/-- Claim C3 (amended): for every string the sanitized result has length
at most 120 characters (so a 300-character title shrinks to at most
120); and sanitization is idempotent for every input whose sanitized
form does not end in a space — the truncation to 120 characters can
leave a trailing space which a second round of sanitization strips, so
unrestricted idempotency fails (see the counterexample). -/
theorem c3_sanitize_amended (s : String) :
    (sanitize_filename s).length ≤ 120 ∧
    (endsWithSpace (sanitize_filename s) = false →
      sanitize_filename (sanitize_filename s) = sanitize_filename s) := by
  constructor
  · show (String.mk (sanitizeL s.data)).length ≤ 120
    simpa [String.length] using sanitizeL_length s.data
  · intro hend
    show sanitize_filename (String.mk (sanitizeL s.data)) = String.mk (sanitizeL s.data)
    unfold sanitize_filename
    show String.mk (sanitizeL (sanitizeL s.data)) = _
    have hfix : sanitizeL (sanitizeL s.data) = sanitizeL s.data := by
      apply sanitizeL_fix
      intro hsp
      show False
      have hend2 : ((sanitizeL s.data).getLast? == some ' ') = false := hend
      rw [hsp] at hend2
      simp at hend2
    rw [hfix]

/-- Claim C3 (counterexample): sanitization is not idempotent on the
119-`a`s-space-`b` string — the first pass truncates to 120 characters
ending in a space, the second pass strips that space. -/
theorem c3_sanitize_counterexample :
    sanitize_filename (sanitize_filename (String.mk (List.replicate 119 'a' ++ [' ', 'b']))) ≠
      sanitize_filename (String.mk (List.replicate 119 'a' ++ [' ', 'b'])) := by
  decide

/-- Claim C3 (witness): the amended idempotency applied to a concrete title. -/
theorem c3_sanitize_witness :
    sanitize_filename (sanitize_filename "My: Page?") = sanitize_filename "My: Page?" :=
  (c3_sanitize_amended "My: Page?").2 (by decide)

/-! ### Title extraction: the `html`-shadowing bug -/

/-- Claim C2 (code bug): the specified fallback order holds for the
metadata branch and the URL branches, but the HTML `<title>` branch
cannot return a title at all: in `_extract_title` the parameter `html`
shadows the imported `html` module, so `html.unescape(match.group(1))`
is an attribute access on a `str` and raises `AttributeError` whenever
the `<title>` regex matches.  Concretely: a metadata title is
preferred; with no usable metadata and HTML containing a `<title>`
element the call raises instead of returning the decoded title; with
no matching HTML the last non-empty path segment is used; with an
empty path the full URL is returned. -/
theorem c2_extract_title_code_bug :
    extract_title (some [("title", "Meta Title")]) "<title>Ignored</title>" "https://ex.com/a"
      = Except.ok "Meta Title" ∧
    extract_title none "<html><TITLE lang=en>Docs Home</TITLE></html>" "https://ex.com/a"
      = Except.error attrErrorMsg ∧
    extract_title (some []) "<title>Docs</title>" "https://ex.com/a"
      = Except.error attrErrorMsg ∧
    extract_title none "no title element here" "https://ex.com/guide/intro/"
      = Except.ok "intro" ∧
    extract_title none "" "https://ex.com/"
      = Except.ok "https://ex.com/" := by
  exact ⟨rfl, rfl, rfl, rfl, rfl⟩

/-! ### Decimal numerals: facts about `Nat.repr` -/

theorem toDigitsCore_eq_digits :
    ∀ (fuel n : Nat) (acc : List Char), 0 < n → n < fuel →
      Nat.toDigitsCore 10 fuel n acc = ((Nat.digits 10 n).map Nat.digitChar).reverse ++ acc := by
  intro fuel
  induction fuel with
  | zero => intro n acc _ h; omega
  | succ f ih =>
    intro n acc hn hf
    rw [Nat.digits_def' (by norm_num : (1 : Nat) < 10) hn]
    by_cases h10 : n / 10 = 0
    · show (if n / 10 = 0 then Nat.digitChar (n % 10) :: acc
            else Nat.toDigitsCore 10 f (n / 10) (Nat.digitChar (n % 10) :: acc)) = _
      rw [if_pos h10, h10, Nat.digits_zero]
      simp
    · show (if n / 10 = 0 then Nat.digitChar (n % 10) :: acc
            else Nat.toDigitsCore 10 f (n / 10) (Nat.digitChar (n % 10) :: acc)) = _
      rw [if_neg h10]
      have hlt : n / 10 < f := by
        have h1 : n / 10 < n := Nat.div_lt_self hn (by norm_num)
        omega
      rw [ih (n / 10) (Nat.digitChar (n % 10) :: acc) (Nat.pos_of_ne_zero h10) hlt]
      simp [List.append_assoc]

theorem repr_data (n : Nat) (hn : 0 < n) :
    (Nat.repr n).data = ((Nat.digits 10 n).map Nat.digitChar).reverse := by
  show (Nat.toDigits 10 n).asString.data = _
  unfold Nat.toDigits
  rw [toDigitsCore_eq_digits (n + 1) n [] hn (by omega)]
  simp [List.asString]

theorem repr_zero_data : (Nat.repr 0).data = ['0'] := rfl

theorem digitChar_inj_aux : ∀ d e : Fin 10, Nat.digitChar d.val = Nat.digitChar e.val → d = e := by
  decide

theorem digitChar_ne_dash_aux : ∀ d : Fin 10, Nat.digitChar d.val ≠ '-' := by
  decide

theorem digitChar_inj {d e : Nat} (hd : d < 10) (he : e < 10)
    (h : Nat.digitChar d = Nat.digitChar e) : d = e := by
  have := digitChar_inj_aux ⟨d, hd⟩ ⟨e, he⟩ h
  simpa using congrArg Fin.val this

theorem map_digitChar_inj :
    ∀ (xs ys : List Nat), (∀ x ∈ xs, x < 10) → (∀ y ∈ ys, y < 10) →
      xs.map Nat.digitChar = ys.map Nat.digitChar → xs = ys := by
  intro xs
  induction xs with
  | nil =>
    intro ys _ _ h
    cases ys with
    | nil => rfl
    | cons b ys2 => simp at h
  | cons a xs2 ih =>
    intro ys hx hy h
    cases ys with
    | nil => simp at h
    | cons b ys2 =>
      simp only [List.map_cons, List.cons.injEq] at h
      have ha : a = b :=
        digitChar_inj (hx a (List.mem_cons_self a xs2)) (hy b (List.mem_cons_self b ys2)) h.1
      have := ih ys2 (fun x h2 => hx x (List.mem_cons_of_mem a h2))
        (fun y h2 => hy y (List.mem_cons_of_mem b h2)) h.2
      rw [ha, this]

theorem repr_pos_ne_zero (n : Nat) (hn : 0 < n) : Nat.repr n ≠ Nat.repr 0 := by
  intro h
  have hd : (Nat.repr n).data = ['0'] := by rw [h, repr_zero_data]
  rw [repr_data n hn] at hd
  have hmap : (Nat.digits 10 n).map Nat.digitChar = ['0'] := by
    have := congrArg List.reverse hd
    simpa using this
  cases hdig : Nat.digits 10 n with
  | nil => rw [hdig] at hmap; simp at hmap
  | cons a rest =>
    rw [hdig] at hmap
    cases rest with
    | cons b rest2 => simp at hmap
    | nil =>
      simp only [List.map_cons, List.map_nil, List.cons.injEq, and_true] at hmap
      have ha : a < 10 :=
        Nat.digits_lt_base (by norm_num) (by rw [hdig]; exact List.mem_cons_self a [])
      have ha0 : a = 0 := digitChar_inj ha (by norm_num) (by rw [hmap]; rfl)
      have hof := Nat.ofDigits_digits 10 n
      rw [hdig, ha0] at hof
      simp [Nat.ofDigits] at hof
      omega

theorem repr_inj {m n : Nat} (h : Nat.repr m = Nat.repr n) : m = n := by
  rcases Nat.eq_zero_or_pos m with hm | hm
  · rcases Nat.eq_zero_or_pos n with hn | hn
    · rw [hm, hn]
    · subst hm; exact absurd h.symm (repr_pos_ne_zero n hn)
  · rcases Nat.eq_zero_or_pos n with hn | hn
    · subst hn; exact absurd h (repr_pos_ne_zero m hm)
    · have hd : (Nat.repr m).data = (Nat.repr n).data := by rw [h]
      rw [repr_data m hm, repr_data n hn] at hd
      have hmap : (Nat.digits 10 m).map Nat.digitChar = (Nat.digits 10 n).map Nat.digitChar := by
        have := congrArg List.reverse hd
        simpa using this
      have hdig := map_digitChar_inj (Nat.digits 10 m) (Nat.digits 10 n)
        (fun x hx => Nat.digits_lt_base (by norm_num) hx)
        (fun y hy => Nat.digits_lt_base (by norm_num) hy) hmap
      exact Nat.digits.injective 10 hdig

theorem repr_data_ne_nil (n : Nat) : (Nat.repr n).data ≠ [] := by
  rcases Nat.eq_zero_or_pos n with hn | hn
  · subst hn; rw [repr_zero_data]; simp
  · rw [repr_data n hn]
    simp only [ne_eq, List.reverse_eq_nil_iff, List.map_eq_nil_iff]
    exact Nat.digits_ne_nil_iff_ne_zero.mpr (Nat.pos_iff_ne_zero.mp hn)

theorem dash_not_mem_repr (n : Nat) : '-' ∉ (Nat.repr n).data := by
  rcases Nat.eq_zero_or_pos n with hn | hn
  · subst hn; rw [repr_zero_data]; simp
  · rw [repr_data n hn]
    intro hmem
    rw [List.mem_reverse, List.mem_map] at hmem
    obtain ⟨d, hd, hdc⟩ := hmem
    have hlt : d < 10 := Nat.digits_lt_base (by norm_num) hd
    exact digitChar_ne_dash_aux ⟨d, hlt⟩ hdc

/-! ### Splitting a list at a distinguished character -/

theorem split_at_unique (d : Char) :
    ∀ (u : List Char) (v : List Char) (u2 v2 : List Char), d ∉ u → d ∉ u2 →
      u ++ d :: v = u2 ++ d :: v2 → u = u2 ∧ v = v2 := by
  intro u
  induction u with
  | nil =>
    intro v u2 v2 _ hu2 h
    cases u2 with
    | nil =>
      simp only [List.nil_append, List.cons.injEq] at h
      exact ⟨rfl, h.2⟩
    | cons a u3 =>
      simp only [List.nil_append, List.cons_append, List.cons.injEq] at h
      exact absurd (h.1 ▸ List.mem_cons_self a u3) hu2
  | cons a u3 ih =>
    intro v u2 v2 hu hu2 h
    cases u2 with
    | nil =>
      simp only [List.cons_append, List.nil_append, List.cons.injEq] at h
      exact absurd (h.1.symm ▸ List.mem_cons_self a u3) hu
    | cons b u4 =>
      simp only [List.cons_append, List.cons.injEq] at h
      have hu3 : d ∉ u3 := fun hm => hu (List.mem_cons_of_mem a hm)
      have hu4 : d ∉ u4 := fun hm => hu2 (List.mem_cons_of_mem b hm)
      obtain ⟨h1, h2⟩ := ih v u4 v2 hu3 hu4 h.2
      exact ⟨by rw [h.1, h1], h2⟩

/-! ### Injectivity of the generated filenames -/

theorem nameFor_zero (b : String) : nameFor b 0 = b ++ ".md" := rfl

theorem nameFor_pos (b : String) (i : Nat) (h : i ≠ 0) :
    nameFor b i = b ++ "-" ++ Nat.repr (i + 1) ++ ".md" := by
  unfold nameFor
  rw [if_neg]
  simpa using h

theorem nameFor_pos_data (b : String) (i : Nat) (h : i ≠ 0) :
    (nameFor b i).data = b.data ++ '-' :: ((Nat.repr (i + 1)).data ++ ".md".data) := by
  rw [nameFor_pos b i h]
  simp only [String.data_append]
  simp [List.append_assoc]

theorem nameFor_inj_same {b : String} {i j : Nat} (h : nameFor b i = nameFor b j) : i = j := by
  by_cases hi : i = 0
  · by_cases hj : j = 0
    · rw [hi, hj]
    · exfalso
      rw [hi, nameFor_zero, nameFor_pos b j hj] at h
      have hd := congrArg String.data h
      simp only [String.data_append] at hd
      rw [List.append_assoc, List.append_assoc] at hd
      have := List.append_cancel_left hd
      simp at this
  · by_cases hj : j = 0
    · exfalso
      rw [hj, nameFor_zero, nameFor_pos b i hi] at h
      have hd := congrArg String.data h
      simp only [String.data_append] at hd
      rw [List.append_assoc, List.append_assoc] at hd
      have := List.append_cancel_left hd
      simp at this
    · have hd := congrArg String.data h
      rw [nameFor_pos_data b i hi, nameFor_pos_data b j hj] at hd
      have h2 := List.append_cancel_left hd
      simp only [List.cons.injEq, true_and] at h2
      have h3 := List.append_cancel_right h2
      have h4 : Nat.repr (i + 1) = Nat.repr (j + 1) := String.ext h3
      have := repr_inj h4
      omega

theorem nameFor_inj_cross {b b2 : String} (hne : b ≠ b2)
    (h1 : ∀ k, 2 ≤ k → b ≠ b2 ++ "-" ++ Nat.repr k)
    (h2 : ∀ k, 2 ≤ k → b2 ≠ b ++ "-" ++ Nat.repr k) :
    ∀ i j, nameFor b i ≠ nameFor b2 j := by
  intro i j heq
  by_cases hi : i = 0
  · by_cases hj : j = 0
    · rw [hi, hj, nameFor_zero, nameFor_zero] at heq
      have hd := congrArg String.data heq
      simp only [String.data_append] at hd
      exact hne (String.ext (List.append_cancel_right hd))
    · rw [hi, nameFor_zero, nameFor_pos b2 j hj] at heq
      have hd := congrArg String.data heq
      simp only [String.data_append] at hd
      rw [show b2.data ++ ['-'] ++ (Nat.repr (j + 1)).data ++ ".md".data =
            (b2.data ++ ['-'] ++ (Nat.repr (j + 1)).data) ++ ".md".data by
          simp [List.append_assoc]] at hd
      have hb := List.append_cancel_right hd
      apply h1 (j + 1) (by omega)
      apply String.ext
      simp only [String.data_append]
      exact hb
  · by_cases hj : j = 0
    · rw [hj, nameFor_zero, nameFor_pos b i hi] at heq
      have hd := congrArg String.data heq
      simp only [String.data_append] at hd
      rw [show b.data ++ ['-'] ++ (Nat.repr (i + 1)).data ++ ".md".data =
            (b.data ++ ['-'] ++ (Nat.repr (i + 1)).data) ++ ".md".data by
          simp [List.append_assoc]] at hd
      have hb := List.append_cancel_right hd
      apply h2 (i + 1) (by omega)
      apply String.ext
      simp only [String.data_append]
      exact hb.symm
    · have hd := congrArg String.data heq
      rw [nameFor_pos_data b i hi, nameFor_pos_data b2 j hj] at hd
      rw [show b.data ++ '-' :: ((Nat.repr (i + 1)).data ++ ".md".data) =
            (b.data ++ '-' :: (Nat.repr (i + 1)).data) ++ ".md".data by
          simp [List.append_assoc]] at hd
      rw [show b2.data ++ '-' :: ((Nat.repr (j + 1)).data ++ ".md".data) =
            (b2.data ++ '-' :: (Nat.repr (j + 1)).data) ++ ".md".data by
          simp [List.append_assoc]] at hd
      have hmid := List.append_cancel_right hd
      have hrev := congrArg List.reverse hmid
      simp only [List.reverse_append, List.reverse_cons] at hrev
      rw [show ((Nat.repr (i + 1)).data.reverse ++ ['-']) ++ b.data.reverse =
            (Nat.repr (i + 1)).data.reverse ++ '-' :: b.data.reverse by simp] at hrev
      rw [show ((Nat.repr (j + 1)).data.reverse ++ ['-']) ++ b2.data.reverse =
            (Nat.repr (j + 1)).data.reverse ++ '-' :: b2.data.reverse by simp] at hrev
      have hsplit := split_at_unique '-' ((Nat.repr (i + 1)).data.reverse) (b.data.reverse)
        ((Nat.repr (j + 1)).data.reverse) (b2.data.reverse)
        (by rw [List.mem_reverse]; exact dash_not_mem_repr (i + 1))
        (by rw [List.mem_reverse]; exact dash_not_mem_repr (j + 1)) hrev
      have hbb : b.data.reverse = b2.data.reverse := hsplit.2
      have : b.data = b2.data := by
        have := congrArg List.reverse hbb
        simpa using this
      exact hne (String.ext this)

/-! ### The name registry -/

theorem lookup_updateA_self (m : List (String × Nat)) (k : String) (v : Nat) :
    (updateA m k v).lookup k = some v := by
  induction m with
  | nil => simp [updateA, List.lookup]
  | cons p rest ih =>
    obtain ⟨k2, v2⟩ := p
    by_cases h : k2 = k
    · simp [updateA, h, List.lookup]
    · have hbeq : (k == k2) = false := by simpa using fun h2 => h h2.symm
      simp [updateA, h, List.lookup, hbeq, ih]

theorem lookup_updateA_other (m : List (String × Nat)) (k k2 : String) (v : Nat)
    (h : k2 ≠ k) : (updateA m k v).lookup k2 = m.lookup k2 := by
  have hbeq : (k2 == k) = false := by simpa using h
  induction m with
  | nil => simp [updateA, List.lookup, hbeq]
  | cons p rest ih =>
    obtain ⟨k3, v3⟩ := p
    by_cases h3 : k3 = k
    · subst h3
      simp [updateA, List.lookup, hbeq]
    · by_cases h4 : k2 = k3
      · have hb4 : (k2 == k3) = true := by simpa using h4
        simp [updateA, h3, List.lookup, hb4]
      · have hb4 : (k2 == k3) = false := by simpa using h4
        simp [updateA, h3, List.lookup, hb4, ih]

theorem assignGo_cons (reg : List (String × Nat)) (t : String) (rest : List String) :
    assignGo reg (t :: rest) =
      nameFor (sanitize_filename t) ((reg.lookup (sanitize_filename t)).getD 0) ::
        assignGo (updateA reg (sanitize_filename t)
          (((reg.lookup (sanitize_filename t)).getD 0) + 1)) rest := rfl

theorem assignGo_spec (P : String → Prop)
    (hP : ∀ b, P b → ∀ b2, P b2 → ∀ k, 2 ≤ k → b ≠ b2 ++ "-" ++ Nat.repr k) :
    ∀ (titles : List String) (reg : List (String × Nat)),
      (∀ t ∈ titles, P (sanitize_filename t)) →
      (assignGo reg titles).Nodup ∧
      (∀ nm ∈ assignGo reg titles,
        ∃ b c, P b ∧ nm = nameFor b c ∧ ((reg.lookup b).getD 0) ≤ c) := by
  intro titles
  induction titles with
  | nil =>
    intro reg _
    constructor
    · exact List.nodup_nil
    · intro nm hnm
      simp [assignGo] at hnm
  | cons t rest ih =>
    intro reg hts
    have hPt : P (sanitize_filename t) := hts t (List.mem_cons_self t rest)
    have hrest : ∀ t2 ∈ rest, P (sanitize_filename t2) :=
      fun t2 h2 => hts t2 (List.mem_cons_of_mem t h2)
    obtain ⟨ihN, ihC⟩ := ih (updateA reg (sanitize_filename t)
      (((reg.lookup (sanitize_filename t)).getD 0) + 1)) hrest
    constructor
    · rw [assignGo_cons, List.nodup_cons]
      refine ⟨?_, ihN⟩
      intro hmem
      obtain ⟨b, c, hPb, hnm, hc⟩ := ihC _ hmem
      by_cases hbb : b = sanitize_filename t
      · subst hbb
        rw [lookup_updateA_self] at hc
        have hcc := nameFor_inj_same hnm
        simp only [Option.getD_some] at hc
        omega
      · exact nameFor_inj_cross (Ne.symm hbb)
          (fun k hk => hP (sanitize_filename t) hPt b hPb k hk)
          (fun k hk => hP b hPb (sanitize_filename t) hPt k hk)
          ((reg.lookup (sanitize_filename t)).getD 0) c hnm
    · intro nm hnm
      rw [assignGo_cons] at hnm
      rcases List.mem_cons.mp hnm with h1 | h2
      · exact ⟨sanitize_filename t, (reg.lookup (sanitize_filename t)).getD 0, hPt, h1,
          le_refl _⟩
      · obtain ⟨b, c, hPb, hnmb, hc⟩ := ihC nm h2
        refine ⟨b, c, hPb, hnmb, ?_⟩
        by_cases hbb : b = sanitize_filename t
        · subst hbb
          rw [lookup_updateA_self] at hc
          simp only [Option.getD_some] at hc
          omega
        · rw [lookup_updateA_other reg (sanitize_filename t) b _ hbb] at hc
          exact hc

/-- Claim C1 (amended): the registry disambiguation guarantees that all
generated filenames are distinct provided no sanitized title equals
another sanitized title followed by `-` and a decimal numeral of at
least 2.  Without that restriction uniqueness fails (see the
counterexample): the second use of base `Home` produces `Home-2.md`,
which collides with the first use of a page titled `Home-2`. -/
theorem c1_filenames_unique_amended (titles : List String)
    (hyp : ∀ b ∈ titles.map sanitize_filename, ∀ b2 ∈ titles.map sanitize_filename,
      ∀ k, 2 ≤ k → b ≠ b2 ++ "-" ++ Nat.repr k) :
    (assignNames titles).Nodup := by
  have := assignGo_spec (fun b => b ∈ titles.map sanitize_filename)
    (fun b hb b2 hb2 k hk => hyp b hb b2 hb2 k hk) titles []
    (fun t ht => List.mem_map_of_mem sanitize_filename ht)
  exact this.1

/-- Claim C1 (counterexample): for the title sequence
`["Home", "Home-2", "Home"]` the script generates
`["Home.md", "Home-2.md", "Home-2.md"]` — the third file overwrites the
second, so filename uniqueness does not hold for every title sequence. -/
theorem c1_filenames_counterexample :
    assignNames ["Home", "Home-2", "Home"] = ["Home.md", "Home-2.md", "Home-2.md"] ∧
    ¬ (assignNames ["Home", "Home-2", "Home"]).Nodup := by
  constructor
  · rfl
  · decide

/-- Claim C1 (witness): the amended uniqueness applied to a concrete
title sequence that exercises the `-2` disambiguation path. -/
theorem c1_filenames_witness : (assignNames ["Home", "About", "Home"]).Nodup := by
  apply c1_filenames_unique_amended
  intro b hb b2 hb2 k hk heq
  have hmap : (["Home", "About", "Home"].map sanitize_filename) = ["Home", "About", "Home"] := by
    decide
  rw [hmap] at hb hb2
  have hrk : 1 ≤ (Nat.repr k).length := by
    have h := repr_data_ne_nil k
    show 1 ≤ (Nat.repr k).data.length
    cases hd : (Nat.repr k).data with
    | nil => exact absurd hd h
    | cons a rest => simp
  have hlen := congrArg String.length heq
  rw [String.length_append, String.length_append] at hlen
  have e1 : ("Home" : String).length = 4 := rfl
  have e2 : ("About" : String).length = 5 := rfl
  have e3 : ("-" : String).length = 1 := rfl
  simp only [List.mem_cons, List.not_mem_nil, or_false] at hb hb2
  rcases hb with h1 | h1 | h1 <;> rcases hb2 with h2 | h2 | h2 <;> subst h1 <;> subst h2 <;>
    simp only [e1, e2, e3] at hlen <;> omega

/-! ### Fragment stripping -/

theorem urldefrag_fragmentFree (s : String) : fragmentFree (urldefrag s) = true := by
  unfold fragmentFree urldefrag
  simp only [Bool.not_eq_true']
  show (s.data.takeWhile (fun c => !(c == '#'))).contains '#' = false
  rw [Bool.eq_false_iff]
  intro hmem
  rw [show ((s.data.takeWhile (fun c => !(c == '#'))).contains '#') =
      List.elem '#' (s.data.takeWhile (fun c => !(c == '#'))) from rfl, List.elem_iff] at hmem
  have := List.mem_takeWhile_imp hmem
  simp at this

theorem urldefrag_of_fragmentFree {s : String} (h : fragmentFree s = true) :
    urldefrag s = s := by
  unfold fragmentFree at h
  apply String.ext
  show s.data.takeWhile (fun c => !(c == '#')) = s.data
  rw [List.takeWhile_eq_self_iff]
  intro x hx
  simp only [Bool.not_eq_true'] at h
  rw [Bool.eq_false_iff] at h
  simp only [ne_eq, Bool.not_eq_true] at h
  by_cases hx2 : x = '#'
  · exfalso
    have hmem : ('#') ∈ s.data := hx2 ▸ hx
    have h2 : List.elem '#' s.data = true := List.elem_iff.mpr hmem
    rw [show s.data.contains '#' = List.elem '#' s.data from rfl, h2] at h
    simp at h
  · simpa using hx2

/-! ### The error raised by `_extract_title` is always the AttributeError -/

theorem extract_title_error_msg (m : Option (List (String × String))) (h u e : String)
    (hx : extract_title m h u = .error e) : e = attrErrorMsg := by
  unfold extract_title at hx
  split at hx
  · simp at hx
  · split at hx
    · split at hx
      · simp only [Except.error.injEq] at hx
        exact hx.symm
      · simp at hx
    · simp at hx

/-! ### One loop iteration, by cases -/

theorem stepOnce_eq_skip (env : CrawlEnv) (bn : String) (st : LoopState) (current : String)
    (rest : List String) (h : urldefrag current ∈ st.seen) :
    stepOnce env bn st current rest = (none, { st with queue := rest }) := by
  unfold stepOnce
  rw [if_pos h]

theorem stepOnce_eq_fail (env : CrawlEnv) (bn : String) (st : LoopState) (current : String)
    (rest : List String) (h : urldefrag current ∉ st.seen)
    (hf : (env.fetch (urldefrag current)).success = false) :
    stepOnce env bn st current rest = (none, failState env st (urldefrag current) rest) := by
  unfold stepOnce
  rw [if_neg h, if_pos hf]
  rfl

theorem stepOnce_eq_exn (env : CrawlEnv) (bn : String) (st : LoopState) (current : String)
    (rest : List String) (e : String) (h : urldefrag current ∉ st.seen)
    (hs : (env.fetch (urldefrag current)).success = true)
    (he : extract_title (env.fetch (urldefrag current)).metadata
      (env.fetch (urldefrag current)).html (env.fetch (urldefrag current)).url =
        Except.error e) :
    stepOnce env bn st current rest = (some e, exnState st (urldefrag current) rest) := by
  unfold stepOnce
  rw [if_neg h, if_neg (by simp [hs]), he]
  rfl

theorem stepOnce_eq_ok (env : CrawlEnv) (bn : String) (st : LoopState) (current : String)
    (rest : List String) (title : String) (h : urldefrag current ∉ st.seen)
    (hs : (env.fetch (urldefrag current)).success = true)
    (ht : extract_title (env.fetch (urldefrag current)).metadata
      (env.fetch (urldefrag current)).html (env.fetch (urldefrag current)).url =
        Except.ok title) :
    stepOnce env bn st current rest =
      (none, okState env bn st (urldefrag current) rest title) := by
  unfold stepOnce
  rw [if_neg h, if_neg (by simp [hs]), ht]
  rfl

theorem stepOnce_shape (env : CrawlEnv) (bn : String) (st : LoopState) (current : String)
    (rest : List String) :
    (urldefrag current ∈ st.seen ∧
      stepOnce env bn st current rest = (none, { st with queue := rest })) ∨
    (urldefrag current ∉ st.seen ∧ (env.fetch (urldefrag current)).success = false ∧
      stepOnce env bn st current rest = (none, failState env st (urldefrag current) rest)) ∨
    (urldefrag current ∉ st.seen ∧ (env.fetch (urldefrag current)).success = true ∧
      ∃ title, extract_title (env.fetch (urldefrag current)).metadata
          (env.fetch (urldefrag current)).html (env.fetch (urldefrag current)).url =
            Except.ok title ∧
        stepOnce env bn st current rest =
          (none, okState env bn st (urldefrag current) rest title)) ∨
    (urldefrag current ∉ st.seen ∧ (env.fetch (urldefrag current)).success = true ∧
      stepOnce env bn st current rest =
        (some attrErrorMsg, exnState st (urldefrag current) rest)) := by
  by_cases hseen : urldefrag current ∈ st.seen
  · exact Or.inl ⟨hseen, stepOnce_eq_skip env bn st current rest hseen⟩
  · cases hs : (env.fetch (urldefrag current)).success with
    | false =>
      exact Or.inr (Or.inl ⟨hseen, rfl, stepOnce_eq_fail env bn st current rest hseen hs⟩)
    | true =>
      cases hx : extract_title (env.fetch (urldefrag current)).metadata
          (env.fetch (urldefrag current)).html (env.fetch (urldefrag current)).url with
      | ok title =>
        exact Or.inr (Or.inr (Or.inl ⟨hseen, rfl,
          title, rfl, stepOnce_eq_ok env bn st current rest title hseen hs hx⟩))
      | error e =>
        have he := extract_title_error_msg _ _ _ _ hx
        subst he
        exact Or.inr (Or.inr (Or.inr ⟨hseen, rfl,
          stepOnce_eq_exn env bn st current rest _ hseen hs hx⟩))

theorem stepOnce_seen (env : CrawlEnv) (bn : String) (st : LoopState) (current : String)
    (rest : List String) :
    ∃ d, (stepOnce env bn st current rest).2.seen = st.seen ++ d ∧ d.length ≤ 1 ∧
      (stepOnce env bn st current rest).2.fetched = st.fetched ++ d := by
  rcases stepOnce_shape env bn st current rest with ⟨_, heq⟩ | ⟨_, _, heq⟩ |
    ⟨_, _, title, _, heq⟩ | ⟨_, _, heq⟩ <;> rw [heq]
  · exact ⟨[], by simp, by simp, by simp⟩
  · exact ⟨[urldefrag current], rfl, by simp, rfl⟩
  · exact ⟨[urldefrag current], rfl, by simp, rfl⟩
  · exact ⟨[urldefrag current], rfl, by simp, rfl⟩

theorem stepOnce_inv (env : CrawlEnv) (bn : String) (st : LoopState) (current : String)
    (rest : List String) (hInv : LoopInv env st) :
    LoopInv env (stepOnce env bn st current rest).2 := by
  obtain ⟨hfs, hnd, hfrag, hlogs, hfiles⟩ := hInv
  have hnodupExt : urldefrag current ∉ st.seen → (st.seen ++ [urldefrag current]).Nodup := by
    intro hseen
    rw [List.nodup_append]
    refine ⟨hnd, List.nodup_singleton _, ?_⟩
    intro a ha hb
    rw [List.mem_singleton] at hb
    exact hseen (hb ▸ ha)
  have hfragExt : ∀ u ∈ st.seen ++ [urldefrag current], fragmentFree u = true := by
    intro u hu
    rcases List.mem_append.mp hu with h1 | h2
    · exact hfrag u h1
    · rw [List.mem_singleton] at h2
      rw [h2]
      exact urldefrag_fragmentFree current
  rcases stepOnce_shape env bn st current rest with ⟨hseen, heq⟩ | ⟨hseen, hf, heq⟩ |
    ⟨hseen, hs, title, hx, heq⟩ | ⟨hseen, hs, heq⟩ <;> rw [heq]
  · exact ⟨hfs, hnd, hfrag, hlogs, hfiles⟩
  · refine ⟨?_, hnodupExt hseen, hfragExt, ?_, ?_⟩
    · show st.fetched ++ [urldefrag current] = st.seen ++ [urldefrag current]
      rw [hfs]
    · show st.logs ++ [skipMsg (urldefrag current)
          (env.fetch (urldefrag current)).error_message] =
        ((st.fetched ++ [urldefrag current]).filter (fun u => !(env.fetch u).success)).map
          (fun u => skipMsg u (env.fetch u).error_message)
      rw [List.filter_append, List.map_append, ← hlogs]
      rw [show List.filter (fun u => !(env.fetch u).success) [urldefrag current] =
            [urldefrag current] by simp [List.filter, hf]]
      rfl
    · intro hAll
      exact hfiles hAll
  · refine ⟨?_, hnodupExt hseen, hfragExt, ?_, ?_⟩
    · show st.fetched ++ [urldefrag current] = st.seen ++ [urldefrag current]
      rw [hfs]
    · show st.logs =
        ((st.fetched ++ [urldefrag current]).filter (fun u => !(env.fetch u).success)).map
          (fun u => skipMsg u (env.fetch u).error_message)
      rw [List.filter_append, List.map_append, ← hlogs]
      rw [show List.filter (fun u => !(env.fetch u).success) [urldefrag current] = [] by
        simp [List.filter, hs]]
      simp
    · intro hAll
      exact absurd (hAll (urldefrag current)) (by rw [hs]; simp)
  · refine ⟨?_, hnodupExt hseen, hfragExt, ?_, ?_⟩
    · show st.fetched ++ [urldefrag current] = st.seen ++ [urldefrag current]
      rw [hfs]
    · show st.logs =
        ((st.fetched ++ [urldefrag current]).filter (fun u => !(env.fetch u).success)).map
          (fun u => skipMsg u (env.fetch u).error_message)
      rw [List.filter_append, List.map_append, ← hlogs]
      rw [show List.filter (fun u => !(env.fetch u).success) [urldefrag current] = [] by
        simp [List.filter, hs]]
      simp
    · intro hAll
      exact hfiles hAll

/-! ### Loop invariants -/

theorem crawlLoop_inv (env : CrawlEnv) (bn : String) (mp : Option Nat) :
    ∀ (fuel : Nat) (st : LoopState), LoopInv env st →
      LoopInv env (crawlLoop env bn mp fuel st).state ∧
      ∃ d, (crawlLoop env bn mp fuel st).state.seen = st.seen ++ d := by
  intro fuel
  induction fuel with
  | zero =>
    intro st h
    rcases hq : st.queue with _ | ⟨c, rest⟩
    · simp only [crawlLoop, hq]
      exact ⟨h, [], by simp [LoopOutcome.state]⟩
    · simp only [crawlLoop, hq]
      by_cases hcap : capReached mp st.seen.length = true
      · rw [if_pos hcap]
        exact ⟨h, [], by simp [LoopOutcome.state]⟩
      · rw [if_neg hcap]
        exact ⟨h, [], by simp [LoopOutcome.state]⟩
  | succ f ih =>
    intro st h
    rcases hq : st.queue with _ | ⟨c, rest⟩
    · simp only [crawlLoop, hq]
      exact ⟨h, [], by simp [LoopOutcome.state]⟩
    · simp only [crawlLoop, hq]
      by_cases hcap : capReached mp st.seen.length = true
      · rw [if_pos hcap]
        exact ⟨h, [], by simp [LoopOutcome.state]⟩
      · rw [if_neg hcap]
        have hseen := stepOnce_seen env bn st c rest
        have hinv1 := stepOnce_inv env bn st c rest h
        rcases hp : stepOnce env bn st c rest with ⟨eo, st1⟩
        rw [hp] at hseen hinv1
        simp only [Prod.snd] at hseen hinv1
        obtain ⟨d, hd, _, _⟩ := hseen
        cases eo with
        | some e =>
          exact ⟨hinv1, d, hd⟩
        | none =>
          obtain ⟨h2, d2, hd2⟩ := ih st1 hinv1
          refine ⟨h2, d ++ d2, ?_⟩
          show (crawlLoop env bn mp f st1).state.seen = _
          rw [hd2, hd, List.append_assoc]

theorem crawlLoop_cap (env : CrawlEnv) (bn : String) (N : Nat) :
    ∀ (fuel : Nat) (st : LoopState), st.seen.length ≤ N →
      (crawlLoop env bn (some N) fuel st).state.seen.length ≤ N := by
  intro fuel
  induction fuel with
  | zero =>
    intro st h
    rcases hq : st.queue with _ | ⟨c, rest⟩
    · simp only [crawlLoop, hq]
      exact h
    · simp only [crawlLoop, hq]
      by_cases hcap : capReached (some N) st.seen.length = true
      · rw [if_pos hcap]; exact h
      · rw [if_neg hcap]; exact h
  | succ f ih =>
    intro st h
    rcases hq : st.queue with _ | ⟨c, rest⟩
    · simp only [crawlLoop, hq]
      exact h
    · simp only [crawlLoop, hq]
      by_cases hcap : capReached (some N) st.seen.length = true
      · rw [if_pos hcap]; exact h
      · rw [if_neg hcap]
        have hlt : st.seen.length < N := by
          unfold capReached at hcap
          simp at hcap
          omega
        have hseen := stepOnce_seen env bn st c rest
        rcases hp : stepOnce env bn st c rest with ⟨eo, st1⟩
        rw [hp] at hseen
        simp only [Prod.snd] at hseen
        obtain ⟨d, hd, hdl, _⟩ := hseen
        have hst1 : st1.seen.length ≤ N := by
          have hlen : st1.seen.length = st.seen.length + d.length := by
            rw [hd]; simp
          omega
        cases eo with
        | some e => exact hst1
        | none => exact ih st1 hst1

theorem crawlLoop_allFail_done (env : CrawlEnv) (bn : String) (mp : Option Nat)
    (hAll : envAllFail env) :
    ∀ (fuel : Nat) (st : LoopState), st.queue.length ≤ fuel →
      ∃ st2, crawlLoop env bn mp fuel st = LoopOutcome.done st2 := by
  intro fuel
  induction fuel with
  | zero =>
    intro st h
    have hq : st.queue = [] := List.length_eq_zero.mp (Nat.le_zero.mp h)
    exact ⟨st, by simp [crawlLoop, hq]⟩
  | succ f ih =>
    intro st h
    rcases hq : st.queue with _ | ⟨c, rest⟩
    · exact ⟨st, by simp [crawlLoop, hq]⟩
    · by_cases hcap : capReached mp st.seen.length = true
      · exact ⟨st, by simp [crawlLoop, hq, hcap]⟩
      · have hrest : rest.length ≤ f := by
          rw [hq] at h
          simp at h
          omega
        rcases stepOnce_shape env bn st c rest with ⟨_, heq⟩ | ⟨_, _, heq⟩ |
          ⟨_, hs, _⟩ | ⟨_, hs, _⟩
        · obtain ⟨st2, h2⟩ := ih { st with queue := rest } hrest
          refine ⟨st2, ?_⟩
          simp only [crawlLoop, hq]
          rw [if_neg hcap, heq]
          exact h2
        · obtain ⟨st2, h2⟩ := ih (failState env st (urldefrag c) rest) hrest
          refine ⟨st2, ?_⟩
          simp only [crawlLoop, hq]
          rw [if_neg hcap, heq]
          exact h2
        · exact absurd (hAll (urldefrag c)) (by rw [hs]; simp)
        · exact absurd (hAll (urldefrag c)) (by rw [hs]; simp)

theorem crawlLoop_exn_msg (env : CrawlEnv) (bn : String) (mp : Option Nat) :
    ∀ (fuel : Nat) (st : LoopState) (e : String) (st2 : LoopState),
      crawlLoop env bn mp fuel st = LoopOutcome.exn e st2 → e = attrErrorMsg := by
  intro fuel
  induction fuel with
  | zero =>
    intro st e st2 hx
    rcases hq : st.queue with _ | ⟨c, rest⟩
    · rw [show crawlLoop env bn mp 0 st = LoopOutcome.done st by simp [crawlLoop, hq]] at hx
      exact absurd hx (by simp)
    · by_cases hcap : capReached mp st.seen.length = true
      · rw [show crawlLoop env bn mp 0 st = LoopOutcome.done st by
          simp [crawlLoop, hq, hcap]] at hx
        exact absurd hx (by simp)
      · rw [show crawlLoop env bn mp 0 st = LoopOutcome.fuelOut st by
          simp [crawlLoop, hq, hcap]] at hx
        exact absurd hx (by simp)
  | succ f ih =>
    intro st e st2 hx
    rcases hq : st.queue with _ | ⟨c, rest⟩
    · rw [show crawlLoop env bn mp (f + 1) st = LoopOutcome.done st by
        simp [crawlLoop, hq]] at hx
      exact absurd hx (by simp)
    · by_cases hcap : capReached mp st.seen.length = true
      · rw [show crawlLoop env bn mp (f + 1) st = LoopOutcome.done st by
          simp [crawlLoop, hq, hcap]] at hx
        exact absurd hx (by simp)
      · rcases stepOnce_shape env bn st c rest with ⟨_, heq⟩ | ⟨_, _, heq⟩ |
          ⟨_, _, title, _, heq⟩ | ⟨_, _, heq⟩
        · apply ih { st with queue := rest } e st2
          rw [show crawlLoop env bn mp f { st with queue := rest } =
              crawlLoop env bn mp (f + 1) st by
            simp only [crawlLoop, hq]; rw [if_neg hcap, heq]]
          exact hx
        · apply ih (failState env st (urldefrag c) rest) e st2
          rw [show crawlLoop env bn mp f (failState env st (urldefrag c) rest) =
              crawlLoop env bn mp (f + 1) st by
            simp only [crawlLoop, hq]; rw [if_neg hcap, heq]]
          exact hx
        · apply ih (okState env bn st (urldefrag c) rest title) e st2
          rw [show crawlLoop env bn mp f (okState env bn st (urldefrag c) rest title) =
              crawlLoop env bn mp (f + 1) st by
            simp only [crawlLoop, hq]; rw [if_neg hcap, heq]]
          exact hx
        · rw [show crawlLoop env bn mp (f + 1) st =
              LoopOutcome.exn attrErrorMsg (exnState st (urldefrag c) rest) by
            simp only [crawlLoop, hq]; rw [if_neg hcap, heq]] at hx
          exact (LoopOutcome.exn.inj hx).1.symm

/-! ### From the loop to `crawl_site` -/

theorem initState_inv (env : CrawlEnv) (start : String) : LoopInv env (initState start) := by
  refine ⟨rfl, List.nodup_nil, ?_, rfl, fun _ => rfl⟩
  intro u hu
  simp [initState] at hu

theorem crawl_site_invalid (env : CrawlEnv) (start : String) (mp : Option Nat) (fuel : Nat)
    (h : (urlparse start).netloc = "") :
    crawl_site env start mp fuel =
      { error := some invalidUrlMsg, dirCreated := false, finished := false,
        fetched := [], seen := [], files := [], logs := [] } := by
  unfold crawl_site
  rw [if_pos h]

theorem crawl_site_state (env : CrawlEnv) (start : String) (mp : Option Nat) (fuel : Nat)
    (h : ¬ (urlparse start).netloc = "") :
    (crawl_site env start mp fuel).fetched =
      (crawlLoop env (urlparse start).netloc mp fuel (initState start)).state.fetched ∧
    (crawl_site env start mp fuel).seen =
      (crawlLoop env (urlparse start).netloc mp fuel (initState start)).state.seen ∧
    (crawl_site env start mp fuel).files =
      (crawlLoop env (urlparse start).netloc mp fuel (initState start)).state.files ∧
    (crawl_site env start mp fuel).logs =
      (crawlLoop env (urlparse start).netloc mp fuel (initState start)).state.logs ∧
    (crawl_site env start mp fuel).dirCreated = true := by
  unfold crawl_site
  rw [if_neg h]
  cases crawlLoop env (urlparse start).netloc mp fuel (initState start) with
  | done st => exact ⟨rfl, rfl, rfl, rfl, rfl⟩
  | exn e st => exact ⟨rfl, rfl, rfl, rfl, rfl⟩
  | fuelOut st => exact ⟨rfl, rfl, rfl, rfl, rfl⟩

/-- Claim C4: for every run with `maxPages = N`, the crawl fetches at most
`N` distinct pages: the loop checks the visited-set size against the cap
before each dequeue, every fetch adds exactly one URL to the visited
set, and the fetched URLs are pairwise distinct.  This holds for every
environment, fuel and outcome, including runs cut short or aborted. -/
theorem c4_max_pages_cap (env : CrawlEnv) (start : String) (N : Nat) (fuel : Nat) :
    (crawl_site env start (some N) fuel).fetched.length ≤ N ∧
    (crawl_site env start (some N) fuel).fetched.Nodup := by
  by_cases h : (urlparse start).netloc = ""
  · rw [crawl_site_invalid env start (some N) fuel h]
    exact ⟨by simp, List.nodup_nil⟩
  · obtain ⟨hf, _, _, _, _⟩ := crawl_site_state env start (some N) fuel h
    obtain ⟨⟨hfs, hnd, _, _, _⟩, _⟩ :=
      crawlLoop_inv env (urlparse start).netloc (some N) fuel (initState start)
        (initState_inv env start)
    have hcap := crawlLoop_cap env (urlparse start).netloc N fuel (initState start)
      (by simp [initState])
    rw [hf, hfs]
    exact ⟨hcap, hnd⟩

/-- Claim C6: every URL stored in the visited set is fragment-stripped
(contains no `#`), so no two visited entries differ only by their
fragment; the fetched URLs coincide with the visited set and are
pairwise distinct, so each fragment-normalized page is fetched at most
once per run. -/
theorem c6_visited_fragment_free (env : CrawlEnv) (start : String) (mp : Option Nat)
    (fuel : Nat) :
    (∀ u ∈ (crawl_site env start mp fuel).seen, fragmentFree u = true) ∧
    (∀ u ∈ (crawl_site env start mp fuel).seen, ∀ v ∈ (crawl_site env start mp fuel).seen,
      urldefrag u = urldefrag v → u = v) ∧
    (crawl_site env start mp fuel).fetched = (crawl_site env start mp fuel).seen ∧
    (crawl_site env start mp fuel).fetched.Nodup := by
  by_cases h : (urlparse start).netloc = ""
  · rw [crawl_site_invalid env start mp fuel h]
    refine ⟨?_, ?_, rfl, List.nodup_nil⟩
    · intro u hu; simp at hu
    · intro u hu; simp at hu
  · obtain ⟨hf, hs, _, _, _⟩ := crawl_site_state env start mp fuel h
    obtain ⟨⟨hfs, hnd, hfrag, _, _⟩, _⟩ :=
      crawlLoop_inv env (urlparse start).netloc mp fuel (initState start)
        (initState_inv env start)
    rw [hf, hs, hfs]
    refine ⟨hfrag, ?_, rfl, hnd⟩
    intro u hu v hv hdef
    have hu2 : urldefrag u = u := urldefrag_of_fragmentFree (hfrag u hu)
    have hv2 : urldefrag v = v := urldefrag_of_fragmentFree (hfrag v hv)
    rw [← hu2, ← hv2, hdef]

/-- Claim C6 (witness): a concrete run whose start URL carries a fragment;
the visited entry is the fragment-stripped URL and is fragment-free. -/
theorem c6_visited_witness :
    fragmentFree "http://h/a" = true ∧
    "http://h/a" ∈ (crawl_site envFailAll "http://h/a#x" none 3).seen := by
  have hmem : "http://h/a" ∈ (crawl_site envFailAll "http://h/a#x" none 3).seen := by
    rw [show (crawl_site envFailAll "http://h/a#x" none 3).seen = ["http://h/a"] from rfl]
    exact List.mem_singleton.mpr rfl
  exact ⟨(c6_visited_fragment_free envFailAll "http://h/a#x" none 3).1 "http://h/a" hmem, hmem⟩

/-! ### The first dequeued URL -/

theorem crawl_seen_head (env : CrawlEnv) (start : String) (mp : Option Nat) (fuel : Nat)
    (hnet : (urlparse start).netloc ≠ "") (hmp : mp ≠ some 0) :
    (crawl_site env start mp (fuel + 1)).seen.head? = some (urldefrag start) ∧
    (crawl_site env start mp (fuel + 1)).fetched.head? = some (urldefrag start) := by
  obtain ⟨hf, hs, _, _, _⟩ := crawl_site_state env start mp (fuel + 1) hnet
  obtain ⟨⟨hfs, _, _, _, _⟩, _⟩ :=
    crawlLoop_inv env (urlparse start).netloc mp (fuel + 1) (initState start)
      (initState_inv env start)
  have hgoal : (crawlLoop env (urlparse start).netloc mp (fuel + 1)
      (initState start)).state.seen.head? = some (urldefrag start) := by
    have hcap : capReached mp (initState start).seen.length = false := by
      cases mp with
      | none => rfl
      | some n =>
        cases n with
        | zero => exact absurd rfl hmp
        | succ k => simp [capReached, initState]
    simp only [crawlLoop, show (initState start).queue = [start] from rfl]
    rw [if_neg (by rw [hcap]; simp)]
    have hinv1 := stepOnce_inv env (urlparse start).netloc (initState start) start []
      (initState_inv env start)
    rcases stepOnce_shape env (urlparse start).netloc (initState start) start [] with
      ⟨hmem, _⟩ | ⟨_, _, heq⟩ | ⟨_, _, title, _, heq⟩ | ⟨_, _, heq⟩
    · exact absurd hmem (by simp [initState])
    · rw [heq]
      rw [heq] at hinv1
      obtain ⟨_, d, hd⟩ := crawlLoop_inv env (urlparse start).netloc mp fuel
        (failState env (initState start) (urldefrag start) []) hinv1
      show (crawlLoop env (urlparse start).netloc mp fuel
        (failState env (initState start) (urldefrag start) [])).state.seen.head? = _
      rw [hd]
      rfl
    · rw [heq]
      rw [heq] at hinv1
      obtain ⟨_, d, hd⟩ := crawlLoop_inv env (urlparse start).netloc mp fuel
        (okState env (urlparse start).netloc (initState start) (urldefrag start) [] title) hinv1
      show (crawlLoop env (urlparse start).netloc mp fuel
        (okState env (urlparse start).netloc (initState start) (urldefrag start) []
          title)).state.seen.head? = _
      rw [hd]
      rfl
    · rw [heq]
      rfl
  constructor
  · rw [hs]; exact hgoal
  · rw [hf, hfs]; exact hgoal

/-- Claim C5 (counterexample): the claim says the frontier and the
visited set are both seeded with the fragment-stripped start URL; in
the code the frontier is seeded with the raw start URL and the visited
set starts empty. -/
theorem c5_seeding_counterexample :
    ¬ ((initState "http://h/p#f").queue = [urldefrag "http://h/p#f"] ∧
       urldefrag "http://h/p#f" ∈ (initState "http://h/p#f").seen) := by
  decide

/-- Claim C5 (amended): at crawl start the frontier is seeded with the
raw (not fragment-stripped) start URL and the visited set is created
empty; the start URL is fragment-stripped and enters the visited set
when it is dequeued in the first loop iteration, so the first visited
entry is the normalized start URL. -/
theorem c5_seeding_amended (env : CrawlEnv) (start : String) (mp : Option Nat) (fuel : Nat)
    (hnet : (urlparse start).netloc ≠ "") (hmp : mp ≠ some 0) :
    (initState start).queue = [start] ∧ (initState start).seen = [] ∧
    (crawl_site env start mp (fuel + 1)).seen.head? = some (urldefrag start) :=
  ⟨rfl, rfl, (crawl_seen_head env start mp fuel hnet hmp).1⟩

/-- Claim C5 (witness): the amended seeding behaviour at a concrete run. -/
theorem c5_seeding_witness :
    (initState "http://h/p#f").queue = ["http://h/p#f"] ∧
    (initState "http://h/p#f").seen = [] ∧
    (crawl_site envFailAll "http://h/p#f" none 3).seen.head? =
      some (urldefrag "http://h/p#f") :=
  c5_seeding_amended envFailAll "http://h/p#f" none 2 (by decide) (by decide)

/-- Claim C8: every failed fetch produces exactly one log line of the form
`Skip (failed): <url> -> <error message>` — the logs are exactly the
failed entries of the fetched list, in order, with that format — no
file is written for a failed page, and a run whose every fetch fails
still terminates cleanly with zero files written and no error. -/
theorem c8_failure_logging (env : CrawlEnv) (start : String) (mp : Option Nat) (fuel : Nat) :
    (crawl_site env start mp fuel).logs =
      ((crawl_site env start mp fuel).fetched.filter (fun u => !(env.fetch u).success)).map
        (fun u => skipMsg u (env.fetch u).error_message) ∧
    (envAllFail env → 1 ≤ fuel → (crawl_site env start mp fuel).files = [] ∧
      ((urlparse start).netloc ≠ "" →
        (crawl_site env start mp fuel).finished = true ∧
        (crawl_site env start mp fuel).error = none)) := by
  by_cases h : (urlparse start).netloc = ""
  · rw [crawl_site_invalid env start mp fuel h]
    refine ⟨rfl, ?_⟩
    intro _ _
    exact ⟨rfl, fun hn => absurd h hn⟩
  · obtain ⟨hf, _, hfi, hl, _⟩ := crawl_site_state env start mp fuel h
    obtain ⟨⟨_, _, _, hlogs, hfiles⟩, _⟩ :=
      crawlLoop_inv env (urlparse start).netloc mp fuel (initState start)
        (initState_inv env start)
    refine ⟨by rw [hf, hl]; exact hlogs, ?_⟩
    intro hAll hfuel
    refine ⟨by rw [hfi]; exact hfiles hAll, ?_⟩
    intro _
    obtain ⟨st2, hdone⟩ := crawlLoop_allFail_done env (urlparse start).netloc mp hAll fuel
      (initState start) (by simp [initState]; omega)
    constructor
    · show (crawl_site env start mp fuel).finished = true
      unfold crawl_site
      rw [if_neg h, hdone]
    · show (crawl_site env start mp fuel).error = none
      unfold crawl_site
      rw [if_neg h, hdone]

/-- Claim C8 (witness): a concrete run whose only fetch fails: one log
line, no files, clean termination. -/
theorem c8_failure_witness :
    (crawl_site envFailAll "https://ex.com/" none 3).files = [] ∧
    (crawl_site envFailAll "https://ex.com/" none 3).finished = true ∧
    (crawl_site envFailAll "https://ex.com/" none 3).error = none := by
  obtain ⟨_, h2⟩ := c8_failure_logging envFailAll "https://ex.com/" none 3
  obtain ⟨hfi, hfin⟩ := h2 (fun u => rfl) (by omega)
  obtain ⟨ha, hb⟩ := hfin (by decide)
  exact ⟨hfi, ha, hb⟩

/-- Claim C9 (code bug): a start URL whose parsed host is empty fails
immediately with the invalid-URL error and no side effect (no
directory, no fetch, no file).  But the claim's rider that this is the
*only* operation-fatal error is false: a successfully fetched page
with no metadata title and an HTML `<title>` element makes
`_extract_title` raise `AttributeError` (the parameter `html` shadows
the `html` module), aborting the whole run with a different fatal
error. -/
theorem c9_invalid_url_fatal :
    (crawl_site envTitleOnly "nohost" none 5).error = some invalidUrlMsg ∧
    (crawl_site envTitleOnly "nohost" none 5).dirCreated = false ∧
    (crawl_site envTitleOnly "nohost" none 5).fetched = [] ∧
    (crawl_site envTitleOnly "nohost" none 5).files = [] ∧
    (crawl_site envTitleOnly "https://h/" none 5).error = some attrErrorMsg ∧
    (crawl_site envTitleOnly "https://h/" none 5).finished = false ∧
    attrErrorMsg ≠ invalidUrlMsg := by
  exact ⟨rfl, rfl, rfl, rfl, rfl, rfl, by decide⟩

/-- Claim C10: the invalid-URL error is raised exactly when the start
URL's parsed host is empty — no scheme check is applied to the start
URL — so a non-http(s) start URL with a host, such as `ftp://host/x`,
is accepted and fetched as the first page of the crawl. -/
theorem c10_invalid_iff_no_host (env : CrawlEnv) (start : String) (mp : Option Nat)
    (fuel : Nat) :
    ((crawl_site env start mp fuel).error = some invalidUrlMsg ↔
      (urlparse start).netloc = "") ∧
    (crawl_site env "ftp://host/x" none (fuel + 1)).fetched.head? = some "ftp://host/x" := by
  constructor
  · constructor
    · intro herr
      by_cases h : (urlparse start).netloc = ""
      · exact h
      · exfalso
        unfold crawl_site at herr
        rw [if_neg h] at herr
        cases hc : crawlLoop env (urlparse start).netloc mp fuel (initState start) with
        | done st => rw [hc] at herr; simp at herr
        | fuelOut st => rw [hc] at herr; simp at herr
        | exn e st =>
          rw [hc] at herr
          simp only [Option.some.injEq] at herr
          have := crawlLoop_exn_msg env (urlparse start).netloc mp fuel
            (initState start) e st hc
          rw [this] at herr
          exact absurd herr (by decide)
    · intro h
      rw [crawl_site_invalid env start mp fuel h]
  · have := (crawl_seen_head env "ftp://host/x" none fuel (by decide) (by simp)).2
    rw [show urldefrag "ftp://host/x" = "ftp://host/x" from rfl] at this
    exact this

theorem processLink_none (env : CrawlEnv) (finalUrl bn : String) (seen : List String) :
    processLink env finalUrl bn seen ⟨none⟩ = none := rfl

theorem processLink_some (env : CrawlEnv) (finalUrl bn : String) (seen : List String)
    (href : String) :
    processLink env finalUrl bn seen ⟨some href⟩ =
      (if href = "" then none
       else if ¬ ((urlparse (urldefrag (env.urljoin finalUrl href))).scheme = "http" ∨
             (urlparse (urldefrag (env.urljoin finalUrl href))).scheme = "https") then none
       else if (urlparse (urldefrag (env.urljoin finalUrl href))).netloc ≠ bn then none
       else if urldefrag (env.urljoin finalUrl href) ∈ seen then none
       else some (urldefrag (env.urljoin finalUrl href))) := rfl

/-- Claim C7: a discovered link is appended to the frontier if and only
if it has a non-empty href that, resolved against the page's final URL
and fragment-stripped, has scheme `http` or `https`, has a netloc
exactly equal to the start URL's netloc, and is not already in the
visited set; links failing any of these tests are dropped with no
other effect.  (`processLink` is the per-link body of lines 86–99; the
success branch of the loop appends exactly its `filterMap` over the
page's internal links.) -/
theorem c7_link_filter_iff (env : CrawlEnv) (finalUrl bn : String) (seen : List String)
    (link : LinkRec) (u : String) :
    processLink env finalUrl bn seen link = some u ↔
      ((∃ h, link.href = some h ∧ h ≠ "" ∧ u = urldefrag (env.urljoin finalUrl h)) ∧
        ((urlparse u).scheme = "http" ∨ (urlparse u).scheme = "https") ∧
        (urlparse u).netloc = bn ∧ u ∉ seen) := by
  obtain ⟨ho⟩ := link
  cases ho with
  | none =>
    rw [processLink_none]
    simp
  | some href =>
    rw [processLink_some]
    constructor
    · intro hp
      by_cases he : href = ""
      · rw [if_pos he] at hp; simp at hp
      · rw [if_neg he] at hp
        by_cases hsch : ¬ ((urlparse (urldefrag (env.urljoin finalUrl href))).scheme = "http" ∨
            (urlparse (urldefrag (env.urljoin finalUrl href))).scheme = "https")
        · rw [if_pos hsch] at hp; simp at hp
        · rw [if_neg hsch] at hp
          by_cases hnl : (urlparse (urldefrag (env.urljoin finalUrl href))).netloc ≠ bn
          · rw [if_pos hnl] at hp; simp at hp
          · rw [if_neg hnl] at hp
            by_cases hm : urldefrag (env.urljoin finalUrl href) ∈ seen
            · rw [if_pos hm] at hp; simp at hp
            · rw [if_neg hm] at hp
              simp only [Option.some.injEq] at hp
              subst hp
              exact ⟨⟨href, rfl, he, rfl⟩, not_not.mp hsch, not_not.mp hnl, hm⟩
    · intro hcond
      obtain ⟨⟨h2, hh2, he, hu⟩, hsch, hnl, hm⟩ := hcond
      simp only [Option.some.injEq] at hh2
      subst hh2
      rw [if_neg he]
      subst hu
      rw [if_neg (not_not_intro hsch), if_neg (not_not_intro hnl), if_neg hm]

/-- Claim C7 (witness): a same-host link with a fragment is enqueued as
its fragment-stripped URL. -/
theorem c7_link_filter_witness :
    processLink envFailAll "https://a.com/x" "a.com" [] ⟨some "https://a.com/y#sec"⟩ =
      some "https://a.com/y" := by
  apply (c7_link_filter_iff envFailAll "https://a.com/x" "a.com" []
    ⟨some "https://a.com/y#sec"⟩ "https://a.com/y").mpr
  refine ⟨⟨"https://a.com/y#sec", rfl, by decide, by decide⟩, Or.inr (by decide), by decide,
    by simp⟩
